import Mathlib

set_option linter.unusedSectionVars false

/-!
Verification of the density-matrix circuit simulator `DMCircuit`
(`tensorcircuit/densitymatrix.py`).

The simulator keeps the density matrix of an `n`-qubit state as a tensor
network: a list of tensor nodes whose axes carry edge identifiers.  Two axes
carrying the same identifier are connected (a bound edge, produced by the
`^` edge-binding operator of the `tensornetwork` library); an identifier
appearing on one axis only is a dangling edge.  The network keeps one
dangling "right front" (ket) id and one dangling "left front" (bra) id per
qubit.  The external contraction engine is modelled by `sumOver`: the value
of the network at fixed front values is the sum, over all `Fin 2` values of
the bound edge ids, of the product of all node tensors.

Scalars are any commutative ring with a star operation (the numeric backend
and its complex dtype are external collaborators of this component); concrete
evaluations below instantiate the scalars with `ℤ`.

Edge identifiers are natural numbers allocated from a `fresh` counter; the
`tensornetwork` library's edge objects are opaque identities, so a copy of a
node set (`tn.copy`) is modelled as a shift of all identifiers by the
current counter, with an optional complex conjugation (`star`) of every
tensor value.
-/

namespace DMSim

/-- Tensor network node: a tensor of the given rank, all axes of dimension 2,
whose axes carry edge identifiers (`legs`). -/
structure TNode (K : Type) where
  rank : ℕ
  legs : Fin rank → ℕ
  data : (Fin rank → Fin 2) → K

/-- Gate tensor of rank `2 * k` on `k` qubits: axes `0..k-1` are the output
legs, axes `k..2k-1` the input legs (the convention of `apply_general_gate`). -/
structure GateSpec (K : Type) where
  k : ℕ
  data : (Fin (2 * k) → Fin 2) → K

/-- Measurement operator for `expectation`: a tensor of rank `2 * noe`
together with its list of target qubit indices. -/
structure OpSpec (K : Type) where
  noe : ℕ
  data : (Fin (2 * noe) → Fin 2) → K
  index : List ℕ

variable {K : Type} [CommRing K] [StarRing K]

/-- Product of all node tensors of a network under an assignment of `Fin 2`
values to edge identifiers. -/
def prodNodes (nds : List (TNode K)) (ψ : ℕ → Fin 2) : K :=
  (nds.map (fun nd => nd.data (fun i => ψ (nd.legs i)))).prod

/-- Contraction over a list of (bound) edge identifiers: sum the integrand
over all `Fin 2` values of each identifier in the list. -/
def sumOver : List ℕ → ((ℕ → Fin 2) → K) → (ℕ → Fin 2) → K
  | [], F, ψ => F ψ
  | e :: es, F, ψ => ∑ b : Fin 2, sumOver es F (Function.update ψ e b)

/-- Assign value `v i` to the edge identifier at position `i` of the list
`xs`, on top of the base assignment `ψ`. -/
def assignList : List ℕ → (ℕ → Fin 2) → (ℕ → Fin 2) → (ℕ → Fin 2)
  | [], _, ψ => ψ
  | x :: xs, v, ψ => Function.update (assignList xs (fun i => v (i + 1)) ψ) x (v 0)

/-- Extend a finitely indexed tuple of `Fin 2` values to all of `ℕ` by `0`. -/
def padF (m : ℕ) (v : Fin m → Fin 2) : ℕ → Fin 2 :=
  fun i => if h : i < m then v ⟨i, h⟩ else 0

/-- Overwrite the values of `r` at the positions listed in `idx` by the
positional values of `a`. -/
def overwriteL : (ℕ → Fin 2) → List ℕ → (ℕ → Fin 2) → (ℕ → Fin 2)
  | r, [], _ => r
  | r, q :: qs, a => overwriteL (Function.update r q (a 0)) qs (fun i => a (i + 1))

/-- State of a `DMCircuit`: the node list, the list of bound edge ids, the
right-front (ket) and left-front (bra) dangling edge ids, one per qubit, the
allocator for new edge ids, and the memoized full contraction
(`state_tensor`, a dynamically added attribute in the source). -/
structure DMState (K : Type) where
  nqubits : ℕ
  nodes : List (TNode K)
  bonds : List ℕ
  rfront : List ℕ
  lfront : List ℕ
  fresh : ℕ
  state_tensor : Option ((ℕ → Fin 2) → (ℕ → Fin 2) → K)

/-- Copy of one node (`tn.copy`): same tensor with all edge ids shifted into
a fresh range, optionally conjugating the tensor values (`conjugate=True`). -/
def shiftNode (s : ℕ) (conj : Bool) (nd : TNode K) : TNode K :=
  ⟨nd.rank, fun i => nd.legs i + s, fun v => if conj then star (nd.data v) else nd.data v⟩

/-- Copy of a node list, `DMCircuit._copy`. -/
def copyNodes (s : ℕ) (conj : Bool) (nds : List (TNode K)) : List (TNode K) :=
  nds.map (shiftNode s conj)

/-- Value of the whole network at given front values: contract over all
bound edges with the right fronts set to `r` and the left fronts to `l`
(the `output_edge_order = self._rfront + self._lfront` of the source). -/
def dmFun (c : DMState K) (r l : ℕ → Fin 2) : K :=
  sumOver c.bonds (prodNodes c.nodes) (assignList c.rfront r (assignList c.lfront l (fun _ => 0)))

/-- Single-qubit `|0⟩` node `np.array([1.0, 0.0])` with dangling edge id `x`. -/
def ket0Node (x : ℕ) : TNode K :=
  ⟨1, fun _ => x, fun v => if v 0 = 0 then 1 else 0⟩

/-- Constructor path with neither `inputs` nor `dminputs`: `n` ket `|0⟩`
nodes (edge ids `0..n-1`, the right fronts), a conjugated copy of them for
the bra side (ids `n..2n-1`, the left fronts), bra copies listed first. -/
def initNoInput (n : ℕ) : DMState K :=
  { nqubits := n
    nodes := copyNodes n true ((List.range n).map ket0Node) ++ (List.range n).map ket0Node
    bonds := []
    rfront := List.range n
    lfront := (List.range n).map (fun x => x + n)
    fresh := 2 * n
    state_tensor := none }

/-- Row-major (numpy reshape) index of a tuple of qubit values: qubit `0` is
the most significant bit. -/
def valOf (n : ℕ) (v : Fin n → Fin 2) : ℕ :=
  ∑ i : Fin n, (v i).val * 2 ^ (n - 1 - (i : ℕ))

/-- Failure mode of the `inputs` constructor path: the `assert n == nqubits`
on the truncated logarithm, or the subsequent reshape to `[2] * nqubits`. -/
inductive InitErr
  | assertFail
  | reshapeFail
deriving DecidableEq

/-- Constructor path with a pure-state vector `inputs` of length `N`
(`vec i` is entry `i` of the flattened vector).  The source computes
`n = int(np.log(N) / np.log(2))` (truncating; modelled as the exact
`Nat.log2`), asserts `n == nqubits`, then reshapes the vector to `[2] * n`,
which fails unless `N = 2 ^ n`; on success the node (ids `0..n-1`, right
fronts) is duplicated with conjugation for the bra side (ids `n..2n-1`). -/
def initInputs (n N : ℕ) (vec : ℕ → K) : Except InitErr (DMState K) :=
  if Nat.log2 N ≠ n then .error .assertFail
  else if N ≠ 2 ^ n then .error .reshapeFail
  else .ok
    { nqubits := n
      nodes := copyNodes n true [⟨n, fun i => (i : ℕ), fun v => vec (valOf n v)⟩]
                 ++ [⟨n, fun i => (i : ℕ), fun v => vec (valOf n v)⟩]
      bonds := []
      rfront := List.range n
      lfront := (List.range n).map (fun x => x + n)
      fresh := 2 * n
      state_tensor := none }

/-- Constructor path with a density-matrix tensor `dminputs`: one rank-`2n`
node, its first `n` edges the right fronts and the last `n` the left fronts. -/
def initDMInputs (n : ℕ) (dmv : ℕ → K) : DMState K :=
  { nqubits := n
    nodes := [⟨2 * n, fun i => (i : ℕ), fun v => dmv (valOf (2 * n) v)⟩]
    bonds := []
    rfront := List.range n
    lfront := (List.range n).map (fun x => x + n)
    fresh := 2 * n
    state_tensor := none }

/-- Sequential front update of `apply_general_gate`: for each position `i`,
set the entry of `fr` at index `idx[i]` to the dangling gate output id
`base + i`. -/
def setTargets : List ℕ → List ℕ → ℕ → List ℕ
  | fr, [], _ => fr
  | fr, q :: qs, base => setTargets (fr.set q base) qs (base + 1)

/-- Argument tuple fed to a gate tensor: output legs `j < k` take the front
value of target qubit `idx[j]` from `o`, input legs `k + m` take `a m`. -/
def gateArg (k : ℕ) (o : ℕ → Fin 2) (idx : List ℕ) (a : ℕ → Fin 2) : Fin (2 * k) → Fin 2 :=
  fun j => if (j : ℕ) < k then o (idx.getD (j : ℕ) 0) else a ((j : ℕ) - k)

/-- Ket-side gate node as wired by `apply_general_gate`: output leg `j < k`
is a fresh dangling id `f + j` (the new right front of qubit `idx[j]`),
input leg `k + m` carries the current right-front id of qubit `idx[m]`
(the edge binding `gate.get_edge(i + noe) ^ self._rfront[ind]`). -/
def gateNodeR (f k : ℕ) (rf idx : List ℕ) (gd : (Fin (2 * k) → Fin 2) → K) : TNode K :=
  ⟨2 * k,
   fun j => if (j : ℕ) < k then f + (j : ℕ) else rf.getD (idx.getD ((j : ℕ) - k) 0) 0,
   gd⟩

/-- Bra-side (conjugated duplicate) gate node: output legs are the fresh ids
`f + k + j` (the new left fronts), input legs carry the current left-front
ids, and the tensor is the entrywise `star` of the gate tensor. -/
def gateNodeL (f k : ℕ) (lf idx : List ℕ) (gd : (Fin (2 * k) → Fin 2) → K) : TNode K :=
  ⟨2 * k,
   fun j => if (j : ℕ) < k then f + k + (j : ℕ) else lf.getD (idx.getD ((j : ℕ) - k) 0) 0,
   fun v => star (gd v)⟩

/-- Body of `DMCircuit.apply_general_gate` after its assertion: a conjugated
duplicate of the gate is made for the bra side; for each target qubit
position `i` at gate leg `j = i`, the gate input leg `j + k` is bound to the
current right front of qubit `idx[i]` (the input axis carries that edge id),
the new right front of qubit `idx[i]` becomes the gate output leg (fresh id
`fresh + i`); symmetrically for the conjugate and the left fronts; both
nodes are appended and the memoized contraction is invalidated. -/
def applyGeneralGate (c : DMState K) (G : GateSpec K) (idx : List ℕ) : DMState K :=
  { nqubits := c.nqubits
    nodes := c.nodes ++ [gateNodeR c.fresh G.k c.rfront idx G.data,
                         gateNodeL c.fresh G.k c.lfront idx G.data]
    bonds := c.bonds ++ idx.map (fun q => c.rfront.getD q 0)
               ++ idx.map (fun q => c.lfront.getD q 0)
    rfront := setTargets c.rfront idx c.fresh
    lfront := setTargets c.lfront idx (c.fresh + G.k)
    fresh := c.fresh + 2 * G.k
    state_tensor := none }

/-- Full `apply_general_gate` including its assertion
`len(index) == len(set(index))`; a failed assertion propagates to the caller
with the circuit object unmodified (the assertion is the first statement). -/
def applyGeneralGateRun (c : DMState K) (G : GateSpec K) (idx : List ℕ) :
    Option Unit × DMState K :=
  if idx.length = idx.dedup.length then (none, applyGeneralGate c G idx) else (some (), c)

/-- `DMCircuit._contract`: replace the node list by the single tensor the
contraction engine returns for the output order `rfront ++ lfront`; its
dangling edges are the fronts, which are unchanged. -/
def contractState (c : DMState K) : DMState K :=
  { c with
    nodes := [⟨(c.rfront ++ c.lfront).length,
               fun i => (c.rfront ++ c.lfront).get i,
               fun v => sumOver c.bonds (prodNodes c.nodes)
                 (assignList (c.rfront ++ c.lfront)
                   (padF (c.rfront ++ c.lfront).length v) (fun _ => 0))⟩]
    bonds := [] }

/-- `DMCircuit._copy_DMCircuit`: a structurally identical network with fresh
edge identities (modelled as a shift by the allocator) and no memoized
contraction (the copy is a freshly constructed empty circuit object). -/
def copyDMState (c : DMState K) : DMState K :=
  { nqubits := c.nqubits
    nodes := copyNodes c.fresh false c.nodes
    bonds := c.bonds.map (fun e => e + c.fresh)
    rfront := c.rfront.map (fun e => e + c.fresh)
    lfront := c.lfront.map (fun e => e + c.fresh)
    fresh := c.fresh + c.fresh
    state_tensor := none }

/-- `DMCircuit.densitymatrix` (via `_copy_dm_tensor`): if `reuse` is set and
a memoized contraction exists, return (a copy of) it; otherwise contract the
network in order `rfront ++ lfront`, memoize, and return the result.  The
returned matrix is indexed by the right-front values (rows) and left-front
values (columns), the row-major reshape of the rank-`2n` tensor. -/
def densitymatrixRun (c : DMState K) (reuse : Bool) :
    ((ℕ → Fin 2) → (ℕ → Fin 2) → K) × DMState K :=
  match (if reuse then c.state_tensor else none) with
  | some t => (t, c)
  | none => (dmFun c, { c with state_tensor := some (dmFun c) })

/-- Body of `DMCircuit.apply_general_kraus` after its assertion: broadcast a
single index group to all Kraus operators; contract the whole network; for
each Kraus operator, duplicate the contracted network, apply the operator by
the gate procedure at its index group and densify that branch; install the
elementwise sum of the branch matrices, reshaped to rank `2n`, as the sole
node of a fresh network whose first `n` edges are the right fronts and last
`n` the left fronts; invalidate the memoized contraction. -/
def applyGeneralKraus (c : DMState K) (ks : List (GateSpec K)) (idxs : List (List ℕ)) :
    DMState K :=
  { nqubits := c.nqubits
    nodes := [⟨2 * c.nqubits, fun i => (i : ℕ),
               fun v => ((ks.zip (if idxs.length = 1
                   then List.replicate ks.length (idxs.getD 0 []) else idxs)).map
                 (fun p => dmFun (applyGeneralGate (copyDMState (contractState c)) p.1 p.2)
                   (fun q => padF (2 * c.nqubits) v q)
                   (fun q => padF (2 * c.nqubits) v (c.nqubits + q)))).sum⟩]
    bonds := []
    rfront := List.range c.nqubits
    lfront := (List.range c.nqubits).map (fun x => x + c.nqubits)
    fresh := 2 * c.nqubits
    state_tensor := none }

/-- Full `apply_general_kraus` including its assertion
`len(kraus) == len(index) or len(index) == 1`. -/
def applyGeneralKrausRun (c : DMState K) (ks : List (GateSpec K)) (idxs : List (List ℕ)) :
    Option Unit × DMState K :=
  if ks.length = idxs.length ∨ idxs.length = 1 then (none, applyGeneralKraus c ks idxs)
  else (some (), c)

/-- Edge-id renaming table: binding two dangling edges already attached to
nodes (the trace closures of `expectation`) merges their identifiers. -/
def renamePairs (ps : List (ℕ × ℕ)) (e : ℕ) : ℕ :=
  match ps.find? (fun p => p.1 == e) with
  | some p => p.2
  | none => e

/-- Value computed by `DMCircuit.expectation` on the non-error path: the
network nodes are duplicated (ids shifted by `fresh`); each operator node's
output leg `j` is bound to the duplicated left front of qubit `index[j]` and
its input leg `j + noe` to the duplicated right front; every unaddressed
qubit's right front is bound to its own left front (trace closure); the
resulting closed network is contracted to a scalar. -/
def expectationValue (c : DMState K) (ops : List (OpSpec K)) : K :=
  let s := c.fresh
  let occupied := (ops.map OpSpec.index).flatten
  let closures := (List.range c.nqubits).filter (fun j => j ∉ occupied)
  let pairs := closures.map (fun j => (c.lfront.getD j 0 + s, c.rfront.getD j 0 + s))
  let baseNodes := (copyNodes s false c.nodes).map
    (fun nd => (⟨nd.rank, fun i => renamePairs pairs (nd.legs i), nd.data⟩ : TNode K))
  let opNodes := ops.map (fun op => (⟨2 * op.noe,
    fun j => if (j : ℕ) < op.noe then c.lfront.getD (op.index.getD (j : ℕ) 0) 0 + s
             else c.rfront.getD (op.index.getD ((j : ℕ) - op.noe) 0) 0 + s,
    op.data⟩ : TNode K))
  let sumIds := c.bonds.map (fun e => e + s)
    ++ (ops.map (fun op => op.index.map (fun q => c.lfront.getD q 0 + s)
         ++ op.index.map (fun q => c.rfront.getD q 0 + s))).flatten
    ++ closures.map (fun j => c.rfront.getD j 0 + s)
  sumOver sumIds (prodNodes (baseNodes ++ opNodes)) (fun _ => 0)

/-- Sequential duplicate scan of `expectation`: walking the legs of all
operators in order, report a duplicate as soon as a target qubit is already
in the `occupied` set. -/
def dupCheck : List ℕ → List ℕ → Bool
  | _, [] => false
  | occ, e :: rest => if e ∈ occ then true else dupCheck (e :: occ) rest

/-- `DMCircuit.expectation` with its `ValueError` on overlapping operator
supports.  The method reads, but never writes, the circuit's fields (it
works on a duplicate), so the caller's state is returned unchanged in both
outcomes. -/
def expectationRun (c : DMState K) (ops : List (OpSpec K)) : Except Unit K × DMState K :=
  if dupCheck [] ((ops.map OpSpec.index).flatten) then (.error (), c)
  else (.ok (expectationValue c ops), c)

/-- Well-formedness of a network state: one front pair per qubit, all front
and bond identifiers distinct and disjoint, and all identifiers below the
allocator. -/
def WF (c : DMState K) : Prop :=
  c.rfront.length = c.nqubits ∧ c.lfront.length = c.nqubits ∧
  (c.rfront ++ c.lfront).Nodup ∧ c.bonds.Nodup ∧
  (∀ e ∈ c.bonds, e ∉ c.rfront ∧ e ∉ c.lfront) ∧
  (∀ e ∈ c.rfront, e < c.fresh) ∧ (∀ e ∈ c.lfront, e < c.fresh) ∧
  (∀ e ∈ c.bonds, e < c.fresh) ∧
  (∀ nd ∈ c.nodes, ∀ i, nd.legs i < c.fresh)

/-- Validity of the memoized contraction: if present, it is the contraction
of the current network. -/
def cacheOK (c : DMState K) : Prop :=
  ∀ t, c.state_tensor = some t → t = dmFun c

/-- Density matrix of a state as a matrix indexed by tuples of qubit values
(row = right-front/ket values, column = left-front/bra values). -/
def toM (c : DMState K) : Matrix (Fin c.nqubits → Fin 2) (Fin c.nqubits → Fin 2) K :=
  Matrix.of fun x y => dmFun c (padF c.nqubits x) (padF c.nqubits y)

/-- Embedding of a `k`-qubit operator into the full `n`-qubit space at the
target qubits `idx` (identity on all other qubits), as a matrix indexed by
tuples of qubit values. -/
def liftGate (n : ℕ) (G : GateSpec K) (idx : List ℕ) :
    Matrix (Fin n → Fin 2) (Fin n → Fin 2) K :=
  Matrix.of fun x y =>
    if ∀ q : Fin n, (q : ℕ) ∉ idx → x q = y q then
      G.data (gateArg G.k (padF n x) idx (fun m => padF n y (idx.getD m 0)))
    else 0

/-- Bit `q` (big-endian, row-major numpy reshape order) of the row or column
index `i` of a `2 ^ n × 2 ^ n` matrix. -/
def bitsOf (n i q : ℕ) : Fin 2 :=
  ⟨i / 2 ^ (n - 1 - q) % 2, Nat.mod_lt _ (by omega)⟩

/-- Return value of `DMCircuit.densitymatrix()` (default `reuse=True`),
reshaped to an explicit `2 ^ n × 2 ^ n` matrix. -/
def dmMatrix (c : DMState K) : Matrix (Fin (2 ^ c.nqubits)) (Fin (2 ^ c.nqubits)) K :=
  Matrix.of fun i j =>
    (densitymatrixRun c true).1 (bitsOf c.nqubits i) (bitsOf c.nqubits j)

/-! Basic properties of the contraction primitives. -/

theorem prodNodes_append (xs ys : List (TNode K)) (ψ : ℕ → Fin 2) :
    prodNodes (xs ++ ys) ψ = prodNodes xs ψ * prodNodes ys ψ := by
  simp [prodNodes]

theorem prodNodes_congr {nds : List (TNode K)} {ψ1 ψ2 : ℕ → Fin 2}
    (h : ∀ nd ∈ nds, ∀ i, ψ1 (nd.legs i) = ψ2 (nd.legs i)) :
    prodNodes nds ψ1 = prodNodes nds ψ2 := by
  unfold prodNodes
  congr 1
  apply List.map_congr_left
  intro nd hnd
  congr 1
  funext i
  exact h nd hnd i

theorem sumOver_append (xs ys : List ℕ) (F : (ℕ → Fin 2) → K) (ψ : ℕ → Fin 2) :
    sumOver (xs ++ ys) F ψ = sumOver xs (fun φ => sumOver ys F φ) ψ := by
  induction xs generalizing ψ with
  | nil => rfl
  | cons e es ih => simp [sumOver, ih]

theorem sumOver_perm {es1 es2 : List ℕ} (h : es1.Perm es2) (F : (ℕ → Fin 2) → K) :
    ∀ ψ, sumOver es1 F ψ = sumOver es2 F ψ := by
  induction h with
  | nil => intro ψ; rfl
  | cons x _ ih =>
    intro ψ
    simp only [sumOver]
    exact Finset.sum_congr rfl (fun b _ => ih _)
  | swap x y l =>
    intro ψ
    by_cases hxy : x = y
    · subst hxy; rfl
    · simp only [sumOver]
      rw [Finset.sum_comm]
      refine Finset.sum_congr rfl (fun b _ => Finset.sum_congr rfl (fun b2 _ => ?_))
      rw [Function.update_comm (fun h => hxy h.symm)]
  | trans _ _ ih1 ih2 => intro ψ; rw [ih1, ih2]

theorem assignList_notMem {xs : List ℕ} {e : ℕ} (h : e ∉ xs) (v ψ : ℕ → Fin 2) :
    assignList xs v ψ e = ψ e := by
  induction xs generalizing v with
  | nil => rfl
  | cons x xs ih =>
    simp only [List.mem_cons, not_or] at h
    simp only [assignList]
    rw [Function.update_noteq h.1]
    exact ih h.2 _

theorem assignList_getD {xs : List ℕ} (hnd : xs.Nodup) {p : ℕ} (hp : p < xs.length)
    (v ψ : ℕ → Fin 2) : assignList xs v ψ (xs.getD p 0) = v p := by
  induction xs generalizing p v with
  | nil => simp at hp
  | cons x xs ih =>
    obtain ⟨hx, hnd2⟩ := List.nodup_cons.mp hnd
    rcases p with _ | p
    · simp [assignList, List.getD_cons_zero]
    · have hp2 : p < xs.length := by simpa using hp
      have hmem : xs.getD p 0 ∈ xs := by
        rw [List.getD_eq_getElem _ _ hp2]
        exact List.getElem_mem _
      have hne : xs.getD p 0 ≠ x := fun hh => hx (hh ▸ hmem)
      simp only [assignList, List.getD_cons_succ]
      rw [Function.update_noteq hne]
      exact ih hnd2 hp2 _

theorem assignList_update_comm {xs : List ℕ} {e : ℕ} (h : e ∉ xs) (v ψ : ℕ → Fin 2)
    (b : Fin 2) :
    assignList xs v (Function.update ψ e b) = Function.update (assignList xs v ψ) e b := by
  induction xs generalizing v with
  | nil => rfl
  | cons x xs ih =>
    simp only [List.mem_cons, not_or] at h
    simp only [assignList]
    rw [ih h.2, Function.update_comm h.1]

theorem assignList_congr_v {xs : List ℕ} {v1 v2 : ℕ → Fin 2}
    (h : ∀ i < xs.length, v1 i = v2 i) (ψ : ℕ → Fin 2) :
    assignList xs v1 ψ = assignList xs v2 ψ := by
  induction xs generalizing v1 v2 with
  | nil => rfl
  | cons x xs ih =>
    simp only [assignList]
    rw [h 0 (by simp), ih (fun i hi => h (i + 1) (by simpa using Nat.succ_lt_succ hi))]

theorem sumOver_prod_congr {nds : List (TNode K)} {es : List ℕ} {ψ1 ψ2 : ℕ → Fin 2}
    (h : ∀ nd ∈ nds, ∀ i, nd.legs i ∉ es → ψ1 (nd.legs i) = ψ2 (nd.legs i)) :
    sumOver es (prodNodes nds) ψ1 = sumOver es (prodNodes nds) ψ2 := by
  induction es generalizing ψ1 ψ2 with
  | nil => exact prodNodes_congr (fun nd hnd i => h nd hnd i (by simp))
  | cons e es ih =>
    simp only [sumOver]
    refine Finset.sum_congr rfl (fun b _ => ?_)
    apply ih
    intro nd hnd i hni
    by_cases he : nd.legs i = e
    · rw [he, Function.update_same, Function.update_same]
    · rw [Function.update_noteq he, Function.update_noteq he]
      exact h nd hnd i (by simp [hni, he])

theorem sumOver_mul_left {es : List ℕ} {H F : (ℕ → Fin 2) → K}
    (h : ∀ e ∈ es, ∀ φ b, H (Function.update φ e b) = H φ) (ψ : ℕ → Fin 2) :
    sumOver es (fun φ => H φ * F φ) ψ = H ψ * sumOver es F ψ := by
  induction es generalizing ψ with
  | nil => rfl
  | cons e es ih =>
    simp only [sumOver]
    rw [Finset.mul_sum]
    refine Finset.sum_congr rfl (fun b _ => ?_)
    rw [ih (fun x hx => h x (List.mem_cons_of_mem e hx)),
        h e (List.mem_cons_self e es) ψ b]

theorem sumOver_sum_pi {es : List ℕ} (hnd : es.Nodup) (F : (ℕ → Fin 2) → K)
    (ψ : ℕ → Fin 2) :
    sumOver es F ψ = ∑ v : Fin es.length → Fin 2, F (assignList es (padF es.length v) ψ) := by
  induction es generalizing ψ with
  | nil =>
    simp only [sumOver, List.length_nil]
    rw [Fintype.sum_unique]
    rfl
  | cons e es ih =>
    obtain ⟨he, hnd2⟩ := List.nodup_cons.mp hnd
    simp only [sumOver, List.length_cons]
    rw [← Equiv.sum_comp (Fin.consEquiv (fun _ => Fin 2)), Fintype.sum_prod_type]
    refine Finset.sum_congr rfl (fun b _ => ?_)
    rw [ih hnd2 (Function.update ψ e b)]
    refine Finset.sum_congr rfl (fun v _ => ?_)
    congr 1
    rw [assignList_update_comm he]
    show Function.update (assignList es (padF es.length v) ψ) e b
      = Function.update
          (assignList es (fun i => padF (es.length + 1) (Fin.cons b v) (i + 1)) ψ) e
          (padF (es.length + 1) (Fin.cons b v) 0)
    have h0 : padF (es.length + 1) (Fin.cons b v) 0 = b := by
      simp [padF]
    have h1 : assignList es (padF es.length v) ψ
        = assignList es (fun i => padF (es.length + 1) (Fin.cons b v) (i + 1)) ψ := by
      apply assignList_congr_v
      intro i hi
      simp only [padF, hi, dif_pos, Nat.succ_lt_succ hi]
      exact (@Fin.cons_succ es.length (fun _ => Fin 2) b v ⟨i, hi⟩).symm
    rw [h0, h1]

/-! Properties of the front-list update and of network copying. -/

theorem mem_of_mem_set {fr : List ℕ} {q a e : ℕ} (h : e ∈ fr.set q a) : e = a ∨ e ∈ fr := by
  induction fr generalizing q with
  | nil => simp [List.set] at h
  | cons x fr ih =>
    rcases q with _ | q
    · simp only [List.set] at h
      rcases List.mem_cons.mp h with h | h
      · exact Or.inl h
      · exact Or.inr (List.mem_cons_of_mem _ h)
    · simp only [List.set] at h
      rcases List.mem_cons.mp h with h | h
      · exact Or.inr (h ▸ List.mem_cons_self _ _)
      · rcases ih h with h | h
        · exact Or.inl h
        · exact Or.inr (List.mem_cons_of_mem _ h)

theorem nodup_set {fr : List ℕ} {q a : ℕ} (hnd : fr.Nodup) (ha : a ∉ fr) :
    (fr.set q a).Nodup := by
  induction fr generalizing q with
  | nil => simp [List.set]
  | cons x fr ih =>
    obtain ⟨hx, hnd2⟩ := List.nodup_cons.mp hnd
    simp only [List.mem_cons, not_or] at ha
    rcases q with _ | q
    · exact List.nodup_cons.mpr ⟨ha.2, hnd2⟩
    · refine List.nodup_cons.mpr ⟨?_, ih hnd2 ha.2⟩
      intro hm
      rcases mem_of_mem_set hm with h | h
      · exact ha.1 h.symm
      · exact hx h

theorem getD_set_ne {fr : List ℕ} {q p : ℕ} (h : q ≠ p) (a : ℕ) :
    (fr.set q a).getD p 0 = fr.getD p 0 := by
  rw [List.getD_eq_getElem?_getD, List.getD_eq_getElem?_getD, List.getElem?_set_ne h]

theorem setTargets_length (fr idx : List ℕ) (base : ℕ) :
    (setTargets fr idx base).length = fr.length := by
  induction idx generalizing fr base with
  | nil => rfl
  | cons q qs ih => simp [setTargets, ih, List.length_set]

theorem setTargets_getD_notMem {fr idx : List ℕ} {p : ℕ} (h : p ∉ idx) (base : ℕ) :
    (setTargets fr idx base).getD p 0 = fr.getD p 0 := by
  induction idx generalizing fr base with
  | nil => rfl
  | cons q qs ih =>
    simp only [List.mem_cons, not_or] at h
    simp only [setTargets]
    rw [ih h.2, getD_set_ne (fun hh => h.1 hh.symm)]

theorem setTargets_getD_target {fr idx : List ℕ} (hnd : idx.Nodup)
    (hlt : ∀ q ∈ idx, q < fr.length) {i : ℕ} (hi : i < idx.length) (base : ℕ) :
    (setTargets fr idx base).getD (idx.getD i 0) 0 = base + i := by
  induction idx generalizing fr base i with
  | nil => simp at hi
  | cons q qs ih =>
    obtain ⟨hq, hnd2⟩ := List.nodup_cons.mp hnd
    rcases i with _ | i
    · simp only [setTargets, List.getD_cons_zero]
      rw [setTargets_getD_notMem hq]
      have hql : q < (fr.set q base).length := by
        rw [List.length_set]; exact hlt q (List.mem_cons_self _ _)
      rw [List.getD_eq_getElem _ _ hql, List.getElem_set_self]
      omega
    · simp only [setTargets, List.getD_cons_succ]
      have hlt2 : ∀ x ∈ qs, x < (fr.set q base).length := by
        intro x hx; rw [List.length_set]; exact hlt x (List.mem_cons_of_mem _ hx)
      rw [ih hnd2 hlt2 (by simpa using hi)]
      omega

theorem setTargets_mem {fr idx : List ℕ} {base e : ℕ} (h : e ∈ setTargets fr idx base) :
    e ∈ fr ∨ (base ≤ e ∧ e < base + idx.length) := by
  induction idx generalizing fr base with
  | nil => exact Or.inl h
  | cons q qs ih =>
    simp only [setTargets] at h
    rcases ih h with h | h
    · rcases mem_of_mem_set h with h | h
      · right; simp [h]
      · exact Or.inl h
    · right
      simp only [List.length_cons]
      omega

theorem setTargets_nodup {fr idx : List ℕ} {base : ℕ} (hnd : fr.Nodup)
    (hlt : ∀ e ∈ fr, e < base) : (setTargets fr idx base).Nodup := by
  induction idx generalizing fr base with
  | nil => exact hnd
  | cons q qs ih =>
    simp only [setTargets]
    apply ih
    · exact nodup_set hnd (fun hm => absurd (hlt _ hm) (lt_irrefl base))
    · intro e he
      rcases mem_of_mem_set he with h | h
      · omega
      · exact lt_trans (hlt e h) (Nat.lt_succ_self base)

theorem overwriteL_notMem {idx : List ℕ} {p : ℕ} (h : p ∉ idx) (r a : ℕ → Fin 2) :
    overwriteL r idx a p = r p := by
  induction idx generalizing r a with
  | nil => rfl
  | cons q qs ih =>
    simp only [List.mem_cons, not_or] at h
    simp only [overwriteL]
    rw [ih h.2]
    exact Function.update_noteq h.1 _ _

theorem overwriteL_getD {idx : List ℕ} (hnd : idx.Nodup) {i : ℕ} (hi : i < idx.length)
    (r a : ℕ → Fin 2) : overwriteL r idx a (idx.getD i 0) = a i := by
  induction idx generalizing i r a with
  | nil => simp at hi
  | cons q qs ih =>
    obtain ⟨hq, hnd2⟩ := List.nodup_cons.mp hnd
    rcases i with _ | i
    · simp only [overwriteL, List.getD_cons_zero]
      rw [overwriteL_notMem hq, Function.update_same]
    · simp only [overwriteL, List.getD_cons_succ]
      exact ih hnd2 (by simpa using hi) _ _

theorem prodNodes_shift (s : ℕ) (nds : List (TNode K)) (ψ : ℕ → Fin 2) :
    prodNodes (copyNodes s false nds) ψ = prodNodes nds (fun e => ψ (e + s)) := by
  unfold prodNodes copyNodes
  rw [List.map_map]
  rfl

theorem sumOver_shift (s : ℕ) (es : List ℕ) (G : (ℕ → Fin 2) → K) (ψ : ℕ → Fin 2) :
    sumOver (es.map (fun e => e + s)) (fun φ => G (fun e => φ (e + s))) ψ
      = sumOver es G (fun e => ψ (e + s)) := by
  induction es generalizing ψ with
  | nil => rfl
  | cons e es ih =>
    simp only [List.map_cons, sumOver]
    refine Finset.sum_congr rfl (fun b _ => ?_)
    rw [ih]
    congr 1
    funext x
    by_cases hx : x = e
    · subst hx; rw [Function.update_same, Function.update_same]
    · rw [Function.update_noteq (by omega : x + s ≠ e + s), Function.update_noteq hx]

theorem assignList_shift (s : ℕ) (xs : List ℕ) (v ψ : ℕ → Fin 2) :
    (fun e => assignList (xs.map (fun x => x + s)) v ψ (e + s))
      = assignList xs v (fun e => ψ (e + s)) := by
  induction xs generalizing v with
  | nil => rfl
  | cons x xs ih =>
    funext e
    simp only [List.map_cons, assignList]
    by_cases he : e = x
    · subst he; rw [Function.update_same, Function.update_same]
    · rw [Function.update_noteq (by omega : e + s ≠ x + s), Function.update_noteq he]
      exact congrFun (ih _) e

theorem dmFun_copy (c : DMState K) (r l : ℕ → Fin 2) :
    dmFun (copyDMState c) r l = dmFun c r l := by
  unfold dmFun copyDMState
  simp only
  rw [show (prodNodes (copyNodes c.fresh false c.nodes) : (ℕ → Fin 2) → K)
      = fun φ => prodNodes c.nodes (fun e => φ (e + c.fresh)) from
    funext (fun φ => prodNodes_shift c.fresh c.nodes φ)]
  rw [sumOver_shift]
  congr 1
  rw [assignList_shift, assignList_shift]

theorem dmFun_contract (c : DMState K) (hnd : (c.rfront ++ c.lfront).Nodup)
    (r l : ℕ → Fin 2) : dmFun (contractState c) r l = dmFun c r l := by
  unfold dmFun contractState
  simp only [sumOver, prodNodes, List.map_cons, List.map_nil, List.prod_cons,
    List.prod_nil, mul_one]
  congr 1
  funext e
  by_cases he : e ∈ c.rfront ++ c.lfront
  · obtain ⟨p, hp, hpe⟩ := List.mem_iff_getElem.mp he
    have hgd : (c.rfront ++ c.lfront).getD p 0 = e := by
      rw [List.getD_eq_getElem _ _ hp, hpe]
    rw [← hgd, assignList_getD hnd hp]
    simp only [padF, hp, dif_pos]
    rw [List.get_eq_getElem, List.getD_eq_getElem _ _ hp]
  · rw [assignList_notMem he]
    simp only [List.mem_append, not_or] at he
    rw [assignList_notMem he.1, assignList_notMem he.2]

theorem dmFun_set_state_tensor (c : DMState K)
    (x : Option ((ℕ → Fin 2) → (ℕ → Fin 2) → K)) :
    dmFun { c with state_tensor := x } = dmFun c := rfl

theorem getD_mem_self {xs : List ℕ} {i : ℕ} (h : i < xs.length) : xs.getD i 0 ∈ xs := by
  rw [List.getD_eq_getElem _ _ h]
  exact List.getElem_mem _

theorem nodup_getD_inj {xs : List ℕ} (h : xs.Nodup) {p q : ℕ} (hp : p < xs.length)
    (hq : q < xs.length) (he : xs.getD p 0 = xs.getD q 0) : p = q := by
  rw [List.getD_eq_getElem _ _ hp, List.getD_eq_getElem _ _ hq] at he
  exact (h.getElem_inj_iff).mp he

theorem getD_map_idx (f : ℕ → ℕ) {idx : List ℕ} {i : ℕ} (hi : i < idx.length) :
    (idx.map f).getD i 0 = f (idx.getD i 0) := by
  rw [List.getD_eq_getElem _ _ (by simpa using hi), List.getElem_map,
    List.getD_eq_getElem _ _ hi]

theorem gateNodeR_legs (f k : ℕ) (rf idx : List ℕ) (gd : (Fin (2 * k) → Fin 2) → K)
    (j : Fin (2 * k)) :
    (gateNodeR f k rf idx gd).legs j
      = if (j : ℕ) < k then f + (j : ℕ) else rf.getD (idx.getD ((j : ℕ) - k) 0) 0 := rfl

theorem gateNodeL_legs (f k : ℕ) (lf idx : List ℕ) (gd : (Fin (2 * k) → Fin 2) → K)
    (j : Fin (2 * k)) :
    (gateNodeL f k lf idx gd).legs j
      = if (j : ℕ) < k then f + k + (j : ℕ) else lf.getD (idx.getD ((j : ℕ) - k) 0) 0 := rfl

theorem gateNodeR_data (f k : ℕ) (rf idx : List ℕ) (gd : (Fin (2 * k) → Fin 2) → K) :
    (gateNodeR f k rf idx gd).data = gd := rfl

theorem gateNodeL_data (f k : ℕ) (lf idx : List ℕ) (gd : (Fin (2 * k) → Fin 2) → K) :
    (gateNodeL f k lf idx gd).data = fun v => star (gd v) := rfl

theorem gateNodeR_rank (f k : ℕ) (rf idx : List ℕ) (gd : (Fin (2 * k) → Fin 2) → K) :
    (gateNodeR f k rf idx gd (K := K)).rank = 2 * k := rfl

theorem gateNodeL_rank (f k : ℕ) (lf idx : List ℕ) (gd : (Fin (2 * k) → Fin 2) → K) :
    (gateNodeL f k lf idx gd (K := K)).rank = 2 * k := rfl

/-- Central lemma: wiring a gate node and its conjugate onto the fronts and
contracting equals the operator-sum sandwich of the old contraction.  Stated
on raw network pieces; `dmFun_applyGate` specializes it to `DMState`. -/
theorem sumOver_gate_core
    (nodes : List (TNode K)) (bonds rf lf idx : List ℕ) (f : ℕ)
    (gdata : (Fin (2 * idx.length) → Fin 2) → K) (r l : ℕ → Fin 2)
    (hrnd : rf.Nodup) (hlnd : lf.Nodup) (hdisj : rf.Disjoint lf)
    (hbr : ∀ e ∈ bonds, e ∉ rf) (hbl : ∀ e ∈ bonds, e ∉ lf)
    (hrlt : ∀ e ∈ rf, e < f) (hllt : ∀ e ∈ lf, e < f) (hblt : ∀ e ∈ bonds, e < f)
    (hnlt : ∀ nd ∈ nodes, ∀ i, nd.legs i < f)
    (hnd : idx.Nodup) (hltr : ∀ q ∈ idx, q < rf.length) (hltl : ∀ q ∈ idx, q < lf.length) :
    sumOver (bonds ++ idx.map (fun q => rf.getD q 0) ++ idx.map (fun q => lf.getD q 0))
        (prodNodes (nodes ++ [gateNodeR f idx.length rf idx gdata,
                              gateNodeL f idx.length lf idx gdata]))
        (assignList (setTargets rf idx f) r
          (assignList (setTargets lf idx (f + idx.length)) l (fun _ => 0)))
      = ∑ a : Fin idx.length → Fin 2, ∑ b : Fin idx.length → Fin 2,
          gdata (gateArg idx.length r idx (padF idx.length a))
            * star (gdata (gateArg idx.length l idx (padF idx.length b)))
            * sumOver bonds (prodNodes nodes)
                (assignList rf (overwriteL r idx (padF idx.length a))
                  (assignList lf (overwriteL l idx (padF idx.length b)) (fun _ => 0))) := by
  set tR := idx.map (fun q => rf.getD q 0) with htR
  set tL := idx.map (fun q => lf.getD q 0) with htL
  set rf2 := setTargets rf idx f with hrf2
  set lf2 := setTargets lf idx (f + idx.length) with hlf2
  have htRlen : tR.length = idx.length := by rw [htR, List.length_map]
  have htLlen : tL.length = idx.length := by rw [htL, List.length_map]
  have htRsub : ∀ e ∈ tR, e ∈ rf := by
    intro e he
    rw [htR, List.mem_map] at he
    obtain ⟨q, hq, rfl⟩ := he
    exact getD_mem_self (hltr q hq)
  have htLsub : ∀ e ∈ tL, e ∈ lf := by
    intro e he
    rw [htL, List.mem_map] at he
    obtain ⟨q, hq, rfl⟩ := he
    exact getD_mem_self (hltl q hq)
  have htRnd : tR.Nodup := by
    rw [htR]
    refine List.Nodup.map_on ?_ hnd
    intro x hx y hy hxy
    exact nodup_getD_inj hrnd (hltr x hx) (hltr y hy) hxy
  have htLnd : tL.Nodup := by
    rw [htL]
    refine List.Nodup.map_on ?_ hnd
    intro x hx y hy hxy
    exact nodup_getD_inj hlnd (hltl x hx) (hltl y hy) hxy
  have hrf2nd : rf2.Nodup := setTargets_nodup hrnd hrlt
  have hlf2nd : lf2.Nodup :=
    setTargets_nodup hlnd (fun e he => lt_of_lt_of_le (hllt e he) (Nat.le_add_right _ _))
  have hrf2len : rf2.length = rf.length := setTargets_length _ _ _
  have hlf2len : lf2.length = lf.length := setTargets_length _ _ _
  have hrf2mem : ∀ e ∈ rf2, e < f + idx.length := by
    intro e he
    rcases setTargets_mem he with h | h
    · exact lt_of_lt_of_le (hrlt e h) (Nat.le_add_right _ _)
    · exact h.2
  have hgetR : ∀ {m : ℕ}, m < idx.length → tR.getD m 0 = rf.getD (idx.getD m 0) 0 := by
    intro m hm
    rw [htR]
    exact getD_map_idx _ hm
  have hgetL : ∀ {m : ℕ}, m < idx.length → tL.getD m 0 = lf.getD (idx.getD m 0) 0 := by
    intro m hm
    rw [htL]
    exact getD_map_idx _ hm
  set base2 := assignList rf2 r (assignList lf2 l (fun _ => 0)) with hbase2
  have hE1 : ∀ (A B : ℕ → Fin 2) (j : ℕ), j < idx.length →
      assignList tL B (assignList tR A base2) (f + j) = r (idx.getD j 0) := by
    intro A B j hj
    have h1 : f + j ∉ tL := fun hm => absurd (hllt _ (htLsub _ hm)) (by omega)
    have h2 : f + j ∉ tR := fun hm => absurd (hrlt _ (htRsub _ hm)) (by omega)
    rw [assignList_notMem h1, assignList_notMem h2, hbase2]
    have h3 : rf2.getD (idx.getD j 0) 0 = f + j := by
      rw [hrf2]
      exact setTargets_getD_target hnd hltr hj f
    rw [← h3]
    exact assignList_getD hrf2nd
      (by rw [hrf2len]; exact hltr _ (getD_mem_self hj)) _ _
  have hE3 : ∀ (A B : ℕ → Fin 2) (j : ℕ), j < idx.length →
      assignList tL B (assignList tR A base2) (f + idx.length + j) = l (idx.getD j 0) := by
    intro A B j hj
    have h1 : f + idx.length + j ∉ tL := fun hm => absurd (hllt _ (htLsub _ hm)) (by omega)
    have h2 : f + idx.length + j ∉ tR := fun hm => absurd (hrlt _ (htRsub _ hm)) (by omega)
    have h4 : f + idx.length + j ∉ rf2 := fun hm => absurd (hrf2mem _ hm) (by omega)
    rw [assignList_notMem h1, assignList_notMem h2, hbase2, assignList_notMem h4]
    have h3 : lf2.getD (idx.getD j 0) 0 = f + idx.length + j := by
      rw [hlf2]
      exact setTargets_getD_target hnd hltl hj (f + idx.length)
    rw [← h3]
    exact assignList_getD hlf2nd
      (by rw [hlf2len]; exact hltl _ (getD_mem_self hj)) _ _
  have hE2 : ∀ (A B : ℕ → Fin 2) (m : ℕ), m < idx.length →
      assignList tL B (assignList tR A base2) (rf.getD (idx.getD m 0) 0) = A m := by
    intro A B m hm
    have h1 : rf.getD (idx.getD m 0) 0 ∉ tL :=
      fun hmem => hdisj (getD_mem_self (hltr _ (getD_mem_self hm))) (htLsub _ hmem)
    rw [assignList_notMem h1, ← hgetR hm]
    exact assignList_getD htRnd (by rw [htRlen]; exact hm) _ _
  have hE4 : ∀ (A B : ℕ → Fin 2) (m : ℕ), m < idx.length →
      assignList tL B (assignList tR A base2) (lf.getD (idx.getD m 0) 0) = B m := by
    intro A B m hm
    rw [← hgetL hm]
    exact assignList_getD htLnd (by rw [htLlen]; exact hm) _ _
  have hGR : ∀ (A B : ℕ → Fin 2) (j : Fin (2 * idx.length)),
      assignList tL B (assignList tR A base2)
          ((gateNodeR f idx.length rf idx gdata (K := K)).legs j)
        = gateArg idx.length r idx A j := by
    intro A B j
    rw [gateNodeR_legs]
    unfold gateArg
    by_cases hj : (j : ℕ) < idx.length
    · rw [if_pos hj, if_pos hj]
      exact hE1 A B j hj
    · have hj2 : (j : ℕ) - idx.length < idx.length := by have := j.isLt; omega
      rw [if_neg hj, if_neg hj]
      exact hE2 A B _ hj2
  have hGL : ∀ (A B : ℕ → Fin 2) (j : Fin (2 * idx.length)),
      assignList tL B (assignList tR A base2)
          ((gateNodeL f idx.length lf idx gdata (K := K)).legs j)
        = gateArg idx.length l idx B j := by
    intro A B j
    rw [gateNodeL_legs]
    unfold gateArg
    by_cases hj : (j : ℕ) < idx.length
    · rw [if_pos hj, if_pos hj]
      exact hE3 A B j hj
    · have hj2 : (j : ℕ) - idx.length < idx.length := by have := j.isLt; omega
      rw [if_neg hj, if_neg hj]
      exact hE4 A B _ hj2
  have hE5 : ∀ (A B : ℕ → Fin 2), ∀ nd ∈ nodes, ∀ (i : Fin nd.rank), nd.legs i ∉ bonds →
      assignList tL B (assignList tR A base2) (nd.legs i)
        = assignList rf (overwriteL r idx A)
            (assignList lf (overwriteL l idx B) (fun _ => 0)) (nd.legs i) := by
    intro A B nd hndm i _
    have hef : nd.legs i < f := hnlt nd hndm i
    by_cases her : nd.legs i ∈ rf
    · obtain ⟨p, hp, hpe⟩ := List.mem_iff_getElem.mp her
      have hpd : rf.getD p 0 = nd.legs i := by
        rw [List.getD_eq_getElem _ _ hp, hpe]
      by_cases hpidx : p ∈ idx
      · obtain ⟨m, hm, hme⟩ := List.mem_iff_getElem.mp hpidx
        have hmd : idx.getD m 0 = p := by
          rw [List.getD_eq_getElem _ _ hm, hme]
        have he2 : nd.legs i = rf.getD (idx.getD m 0) 0 := by rw [hmd, hpd]
        have hL : assignList tL B (assignList tR A base2) (nd.legs i) = A m := by
          rw [he2]
          exact hE2 A B m hm
        have hR : assignList rf (overwriteL r idx A)
            (assignList lf (overwriteL l idx B) (fun _ => 0)) (nd.legs i) = A m := by
          rw [he2, assignList_getD hrnd (by rw [hmd]; exact hp), overwriteL_getD hnd hm]
        rw [hL, hR]
      · have hetL : nd.legs i ∉ tL := fun hm2 => hdisj her (htLsub _ hm2)
        have hetR : nd.legs i ∉ tR := by
          intro hm2
          rw [htR, List.mem_map] at hm2
          obtain ⟨q, hq, hqe⟩ := hm2
          have hqp : q = p := nodup_getD_inj hrnd (hltr q hq) hp (by rw [hqe, hpd])
          exact hpidx (hqp ▸ hq)
        have hL : assignList tL B (assignList tR A base2) (nd.legs i) = r p := by
          rw [assignList_notMem hetL, assignList_notMem hetR, hbase2]
          have h3 : rf2.getD p 0 = nd.legs i := by
            rw [hrf2, setTargets_getD_notMem hpidx, hpd]
          rw [← h3]
          exact assignList_getD hrf2nd (by rw [hrf2len]; exact hp) _ _
        have hR : assignList rf (overwriteL r idx A)
            (assignList lf (overwriteL l idx B) (fun _ => 0)) (nd.legs i) = r p := by
          rw [← hpd, assignList_getD hrnd hp, overwriteL_notMem hpidx]
        rw [hL, hR]
    · by_cases hel : nd.legs i ∈ lf
      · obtain ⟨q, hq, hqe⟩ := List.mem_iff_getElem.mp hel
        have hqd : lf.getD q 0 = nd.legs i := by
          rw [List.getD_eq_getElem _ _ hq, hqe]
        by_cases hqidx : q ∈ idx
        · obtain ⟨m, hm, hme⟩ := List.mem_iff_getElem.mp hqidx
          have hmd : idx.getD m 0 = q := by
            rw [List.getD_eq_getElem _ _ hm, hme]
          have he2 : nd.legs i = lf.getD (idx.getD m 0) 0 := by rw [hmd, hqd]
          have hL : assignList tL B (assignList tR A base2) (nd.legs i) = B m := by
            rw [he2]
            exact hE4 A B m hm
          have hR : assignList rf (overwriteL r idx A)
              (assignList lf (overwriteL l idx B) (fun _ => 0)) (nd.legs i) = B m := by
            have hnotrf : lf.getD (idx.getD m 0) 0 ∉ rf :=
              fun hmm => hdisj hmm (he2 ▸ hel)
            rw [he2, assignList_notMem hnotrf,
              assignList_getD hlnd (by rw [hmd]; exact hq), overwriteL_getD hnd hm]
          rw [hL, hR]
        · have hetL : nd.legs i ∉ tL := by
            intro hm2
            rw [htL, List.mem_map] at hm2
            obtain ⟨q2, hq2, hqe2⟩ := hm2
            have hqq : q2 = q := nodup_getD_inj hlnd (hltl q2 hq2) hq (by rw [hqe2, hqd])
            exact hqidx (hqq ▸ hq2)
          have hetR : nd.legs i ∉ tR := fun hm2 => her (htRsub _ hm2)
          have h4 : nd.legs i ∉ rf2 := by
            intro hm2
            rw [hrf2] at hm2
            rcases setTargets_mem hm2 with h | h
            · exact her h
            · omega
          have hL : assignList tL B (assignList tR A base2) (nd.legs i) = l q := by
            rw [assignList_notMem hetL, assignList_notMem hetR, hbase2,
              assignList_notMem h4]
            have h5 : lf2.getD q 0 = nd.legs i := by
              rw [hlf2, setTargets_getD_notMem hqidx, hqd]
            rw [← h5]
            exact assignList_getD hlf2nd (by rw [hlf2len]; exact hq) _ _
          have hR : assignList rf (overwriteL r idx A)
              (assignList lf (overwriteL l idx B) (fun _ => 0)) (nd.legs i) = l q := by
            rw [assignList_notMem her, ← hqd, assignList_getD hlnd hq,
              overwriteL_notMem hqidx]
          rw [hL, hR]
      · have hetL : nd.legs i ∉ tL := fun hm2 => hel (htLsub _ hm2)
        have hetR : nd.legs i ∉ tR := fun hm2 => her (htRsub _ hm2)
        have h4 : nd.legs i ∉ rf2 := by
          intro hm2
          rw [hrf2] at hm2
          rcases setTargets_mem hm2 with h | h
          · exact her h
          · omega
        have h5 : nd.legs i ∉ lf2 := by
          intro hm2
          rw [hlf2] at hm2
          rcases setTargets_mem hm2 with h | h
          · exact hel h
          · omega
        rw [assignList_notMem hetL, assignList_notMem hetR, hbase2,
          assignList_notMem h4, assignList_notMem h5,
          assignList_notMem her, assignList_notMem hel]
  have hperm : (bonds ++ tR ++ tL).Perm (tR ++ (tL ++ bonds)) := by
    have h1 : bonds ++ tR ++ tL = bonds ++ (tR ++ tL) := by rw [List.append_assoc]
    have h2 : tR ++ tL ++ bonds = tR ++ (tL ++ bonds) := by rw [List.append_assoc]
    rw [h1, ← h2]
    exact List.perm_append_comm
  rw [sumOver_perm hperm]
  simp only [sumOver_append]
  rw [sumOver_sum_pi htRnd]
  simp only [sumOver_sum_pi htLnd]
  rw [htRlen, htLlen]
  refine Finset.sum_congr rfl (fun a _ => Finset.sum_congr rfl (fun b _ => ?_))
  have hsplit : (prodNodes (nodes ++ [gateNodeR f idx.length rf idx gdata,
        gateNodeL f idx.length lf idx gdata]) : (ℕ → Fin 2) → K)
      = fun φ => (gdata (fun j => φ ((gateNodeR f idx.length rf idx gdata (K := K)).legs j))
          * star (gdata (fun j => φ ((gateNodeL f idx.length lf idx gdata (K := K)).legs j))))
          * prodNodes nodes φ := by
    funext φ
    rw [prodNodes_append]
    simp only [prodNodes, List.map_cons, List.map_nil, List.prod_cons, List.prod_nil,
      mul_one, gateNodeR_data, gateNodeL_data]
    exact mul_comm _ _
  rw [hsplit]
  rw [@sumOver_mul_left K _ _ bonds
    (fun φ => gdata (fun j => φ ((gateNodeR f idx.length rf idx gdata (K := K)).legs j))
      * star (gdata (fun j => φ ((gateNodeL f idx.length lf idx gdata (K := K)).legs j))))
    (prodNodes nodes) ?hinv]
  case hinv =>
    intro e he φ b2
    dsimp only []
    have hR2 : (fun (j : Fin (2 * idx.length)) => Function.update φ e b2
        ((gateNodeR f idx.length rf idx gdata (K := K)).legs j))
        = fun (j : Fin (2 * idx.length)) =>
            φ ((gateNodeR f idx.length rf idx gdata (K := K)).legs j) := by
      funext j
      apply Function.update_noteq
      rw [gateNodeR_legs]
      by_cases hj : (j : ℕ) < idx.length
      · rw [if_pos hj]
        intro heq
        have := hblt e he
        omega
      · rw [if_neg hj]
        intro heq
        have hj3 : (j : ℕ) < 2 * idx.length := j.isLt
        have hj2 : (j : ℕ) - idx.length < idx.length := by omega
        exact hbr e he (heq ▸ getD_mem_self (hltr _ (getD_mem_self hj2)))
    have hL2 : (fun (j : Fin (2 * idx.length)) => Function.update φ e b2
        ((gateNodeL f idx.length lf idx gdata (K := K)).legs j))
        = fun (j : Fin (2 * idx.length)) =>
            φ ((gateNodeL f idx.length lf idx gdata (K := K)).legs j) := by
      funext j
      apply Function.update_noteq
      rw [gateNodeL_legs]
      by_cases hj : (j : ℕ) < idx.length
      · rw [if_pos hj]
        intro heq
        have := hblt e he
        omega
      · rw [if_neg hj]
        intro heq
        have hj3 : (j : ℕ) < 2 * idx.length := j.isLt
        have hj2 : (j : ℕ) - idx.length < idx.length := by omega
        exact hbl e he (heq ▸ getD_mem_self (hltl _ (getD_mem_self hj2)))
    rw [hR2, hL2]
  congr 1
  · congr 1
    · congr 1
      funext j
      exact hGR (padF idx.length a) (padF idx.length b) j
    · congr 1
      congr 1
      funext j
      exact hGL (padF idx.length a) (padF idx.length b) j
  · exact sumOver_prod_congr
      (fun nd hndm i hib => hE5 (padF idx.length a) (padF idx.length b) nd hndm i hib)

/-- Specialization of the central lemma to circuit states: after
`apply_general_gate`, the contraction at fixed front values is the
operator-sum sandwich of the previous contraction. -/
theorem dmFun_applyGate (c : DMState K) (G : GateSpec K) (idx : List ℕ)
    (hwf : WF c) (hnd : idx.Nodup) (hlen : idx.length = G.k)
    (hlt : ∀ q ∈ idx, q < c.nqubits) (r l : ℕ → Fin 2) :
    dmFun (applyGeneralGate c G idx) r l
      = ∑ a : Fin G.k → Fin 2, ∑ b : Fin G.k → Fin 2,
          G.data (gateArg G.k r idx (padF G.k a))
            * star (G.data (gateArg G.k l idx (padF G.k b)))
            * dmFun c (overwriteL r idx (padF G.k a)) (overwriteL l idx (padF G.k b)) := by
  obtain ⟨hrlen, hllen, hfnd, hbnd, hbf, hrlt, hllt, hblt, hnlt⟩ := hwf
  obtain ⟨hrnd2, hlnd2, hdisj⟩ := List.nodup_append.mp hfnd
  rcases G with ⟨k, gdata⟩
  simp only at hlen
  subst hlen
  unfold dmFun applyGeneralGate
  exact sumOver_gate_core c.nodes c.bonds c.rfront c.lfront idx c.fresh gdata r l
    hrnd2 hlnd2 hdisj (fun e he => (hbf e he).1) (fun e he => (hbf e he).2)
    hrlt hllt hblt hnlt hnd
    (fun q hq => hrlen ▸ hlt q hq) (fun q hq => hllen ▸ hlt q hq)

theorem WF_contractState {c : DMState K} (h : WF c) : WF (contractState c) := by
  obtain ⟨hrlen, hllen, hfnd, _hbnd, _hbf, hrlt, hllt, _hblt, _hnlt⟩ := h
  refine ⟨hrlen, hllen, hfnd, List.nodup_nil, ?_, hrlt, hllt, ?_, ?_⟩
  · intro e he
    cases he
  · intro e he
    cases he
  · intro nd hnd i
    simp only [contractState, List.mem_singleton] at hnd
    subst hnd
    have hmem : (c.rfront ++ c.lfront).get i ∈ c.rfront ++ c.lfront := by
      rw [List.get_eq_getElem]
      exact List.getElem_mem _
    rcases List.mem_append.mp hmem with h | h
    · exact hrlt _ h
    · exact hllt _ h

theorem WF_copyDMState {c : DMState K} (h : WF c) : WF (copyDMState c) := by
  obtain ⟨hrlen, hllen, hfnd, hbnd, hbf, hrlt, hllt, hblt, hnlt⟩ := h
  have hinj : Function.Injective (fun e : ℕ => e + c.fresh) :=
    fun a b hab => Nat.add_right_cancel hab
  refine ⟨?_, ?_, ?_, ?_, ?_, ?_, ?_, ?_, ?_⟩
  · simpa [copyDMState] using hrlen
  · simpa [copyDMState] using hllen
  · show ((c.rfront.map _) ++ (c.lfront.map _)).Nodup
    rw [← List.map_append]
    exact hfnd.map hinj
  · exact hbnd.map hinj
  · intro e he
    simp only [copyDMState, List.mem_map] at he
    obtain ⟨b, hb, rfl⟩ := he
    constructor
    · intro hm
      simp only [copyDMState, List.mem_map] at hm
      obtain ⟨x, hx, hxe⟩ := hm
      have hxb : x = b := by omega
      exact (hbf b hb).1 (hxb ▸ hx)
    · intro hm
      simp only [copyDMState, List.mem_map] at hm
      obtain ⟨x, hx, hxe⟩ := hm
      have hxb : x = b := by omega
      exact (hbf b hb).2 (hxb ▸ hx)
  · intro e he
    simp only [copyDMState, List.mem_map] at he
    obtain ⟨x, hx, rfl⟩ := he
    have := hrlt x hx
    show x + c.fresh < c.fresh + c.fresh
    omega
  · intro e he
    simp only [copyDMState, List.mem_map] at he
    obtain ⟨x, hx, rfl⟩ := he
    have := hllt x hx
    show x + c.fresh < c.fresh + c.fresh
    omega
  · intro e he
    simp only [copyDMState, List.mem_map] at he
    obtain ⟨x, hx, rfl⟩ := he
    have := hblt x hx
    show x + c.fresh < c.fresh + c.fresh
    omega
  · intro nd hd i
    simp only [copyDMState, copyNodes, List.mem_map] at hd
    obtain ⟨nd0, hnd0, rfl⟩ := hd
    have := hnlt nd0 hnd0 i
    show nd0.legs i + c.fresh < c.fresh + c.fresh
    omega

theorem dmFun_congr_fronts (c : DMState K) {r r2 l l2 : ℕ → Fin 2}
    (hr : ∀ p < c.rfront.length, r p = r2 p) (hl : ∀ p < c.lfront.length, l p = l2 p) :
    dmFun c r l = dmFun c r2 l2 := by
  unfold dmFun
  rw [show assignList c.lfront l (fun _ => 0) = assignList c.lfront l2 (fun _ => 0) from
    assignList_congr_v hl _]
  rw [assignList_congr_v hr]

theorem broadcast_self {ks : List (GateSpec K)} {idxs : List (List ℕ)}
    (hm : ks.length = idxs.length) :
    (if idxs.length = 1 then List.replicate ks.length (idxs.getD 0 []) else idxs) = idxs := by
  by_cases h1 : idxs.length = 1
  · rw [if_pos h1]
    rcases idxs with _ | ⟨i0, rest⟩
    · simp at h1
    · have hr : rest = [] := by
        simp only [List.length_cons] at h1
        exact List.eq_nil_of_length_eq_zero (by omega)
      subst hr
      rw [hm]
      rfl
  · rw [if_neg h1]

/-- After `apply_general_kraus`, the contraction at fixed front values is the
sum over Kraus branches of the branch contractions (each branch applies its
operator as a gate to a fresh copy of the pre-contracted network). -/
theorem dmFun_applyKraus (c : DMState K) (ks : List (GateSpec K)) (idxs : List (List ℕ))
    (hm : ks.length = idxs.length)
    (hrlen : c.rfront.length = c.nqubits) (hllen : c.lfront.length = c.nqubits)
    (r l : ℕ → Fin 2) :
    dmFun (applyGeneralKraus c ks idxs) r l
      = ((ks.zip idxs).map (fun p =>
          dmFun (applyGeneralGate (copyDMState (contractState c)) p.1 p.2) r l)).sum := by
  unfold dmFun applyGeneralKraus
  simp only [broadcast_self hm, sumOver, prodNodes, List.map_cons, List.map_nil,
    List.prod_cons, List.prod_nil, mul_one]
  congr 1
  apply List.map_congr_left
  intro p _
  set d := applyGeneralGate (copyDMState (contractState c)) p.1 p.2 with hd
  have hdr : d.rfront.length = c.nqubits := by
    rw [hd]
    show (setTargets _ _ _).length = c.nqubits
    rw [setTargets_length]
    show (c.rfront.map _).length = c.nqubits
    rw [List.length_map, hrlen]
  have hdl : d.lfront.length = c.nqubits := by
    rw [hd]
    show (setTargets _ _ _).length = c.nqubits
    rw [setTargets_length]
    show (c.lfront.map _).length = c.nqubits
    rw [List.length_map, hllen]
  have hrng : (List.range c.nqubits).Nodup := List.nodup_range c.nqubits
  have hbase : ∀ q < c.nqubits,
      assignList (List.range c.nqubits) r
        (assignList ((List.range c.nqubits).map (fun x => x + c.nqubits)) l
          (fun _ => 0)) q = r q := by
    intro q hq
    have hg : (List.range c.nqubits).getD q 0 = q := by
      rw [List.getD_eq_getElem _ _ (by simpa using hq), List.getElem_range]
    have hv := assignList_getD hrng (by simpa using hq : q < (List.range c.nqubits).length)
      r (assignList ((List.range c.nqubits).map (fun x => x + c.nqubits)) l (fun _ => 0))
    rw [hg] at hv
    exact hv
  have hbase2 : ∀ q < c.nqubits,
      assignList (List.range c.nqubits) r
        (assignList ((List.range c.nqubits).map (fun x => x + c.nqubits)) l
          (fun _ => 0)) (c.nqubits + q) = l q := by
    intro q hq
    have h1 : c.nqubits + q ∉ List.range c.nqubits := by
      simp only [List.mem_range]
      omega
    rw [assignList_notMem h1]
    have hg : ((List.range c.nqubits).map (fun x => x + c.nqubits)).getD q 0
        = c.nqubits + q := by
      rw [getD_map_idx _ (by simpa using hq)]
      have hg2 : (List.range c.nqubits).getD q 0 = q := by
        rw [List.getD_eq_getElem _ _ (by simpa using hq), List.getElem_range]
      rw [hg2]
      omega
    rw [← hg]
    refine assignList_getD ?_ (by simpa using hq) _ _
    exact hrng.map (fun a b hab => Nat.add_right_cancel hab)
  apply dmFun_congr_fronts
  · intro p2 hp2
    rw [hdr] at hp2
    simp only [padF]
    rw [dif_pos (by omega : p2 < 2 * c.nqubits)]
    exact hbase p2 hp2
  · intro p2 hp2
    rw [hdl] at hp2
    simp only [padF]
    rw [dif_pos (by omega : c.nqubits + p2 < 2 * c.nqubits)]
    exact hbase2 p2 hp2

/-- Reindexing a sum over tuples constrained to agree with `x` off the
target positions by the tuples of values on the target positions. -/
theorem sum_constrained (n : ℕ) (idx : List ℕ) (hnd : idx.Nodup)
    (hlt : ∀ q ∈ idx, q < n) (x : Fin n → Fin 2) (F : (Fin n → Fin 2) → K) :
    ∑ u : Fin n → Fin 2, (if ∀ q : Fin n, (q : ℕ) ∉ idx → x q = u q then F u else 0)
      = ∑ a : Fin idx.length → Fin 2,
          F (fun q => overwriteL (padF n x) idx (padF idx.length a) (q : ℕ)) := by
  have himg : Finset.filter
        (fun u : Fin n → Fin 2 => ∀ q : Fin n, (q : ℕ) ∉ idx → x q = u q) Finset.univ
      = Finset.image (fun a : Fin idx.length → Fin 2 =>
          (fun q : Fin n => overwriteL (padF n x) idx (padF idx.length a) (q : ℕ)))
          Finset.univ := by
    ext u
    simp only [Finset.mem_filter, Finset.mem_univ, true_and, Finset.mem_image]
    constructor
    · intro hcond
      refine ⟨fun i => u ⟨idx.getD (i : ℕ) 0, hlt _ (getD_mem_self i.isLt)⟩, ?_⟩
      funext q
      by_cases hq : (q : ℕ) ∈ idx
      · obtain ⟨m, hm, hme⟩ := List.mem_iff_getElem.mp hq
        have hmd : idx.getD m 0 = (q : ℕ) := by
          rw [List.getD_eq_getElem _ _ hm, hme]
        have hov := overwriteL_getD hnd hm (padF n x)
          (padF idx.length (fun i => u ⟨idx.getD (i : ℕ) 0, hlt _ (getD_mem_self i.isLt)⟩))
        rw [hmd] at hov
        show overwriteL _ _ _ (q : ℕ) = u q
        rw [hov]
        simp only [padF, hm, dif_pos]
        congr 1
        exact Fin.ext hmd
      · show overwriteL _ _ _ (q : ℕ) = u q
        rw [overwriteL_notMem hq]
        simp only [padF, q.isLt, dif_pos]
        exact hcond q hq
    · rintro ⟨a, rfl⟩ q hq
      show x q = overwriteL _ _ _ (q : ℕ)
      rw [overwriteL_notMem hq]
      simp [padF, q.isLt]
  have hinj : ∀ a ∈ (Finset.univ : Finset (Fin idx.length → Fin 2)),
      ∀ b ∈ Finset.univ,
      (fun q : Fin n => overwriteL (padF n x) idx (padF idx.length a) (q : ℕ))
        = (fun q : Fin n => overwriteL (padF n x) idx (padF idx.length b) (q : ℕ))
        → a = b := by
    intro a _ b _ hab
    funext i
    have hq := congrFun hab ⟨idx.getD (i : ℕ) 0, hlt _ (getD_mem_self i.isLt)⟩
    simp only [overwriteL_getD hnd i.isLt] at hq
    simp only [padF, i.isLt, dif_pos, Fin.eta] at hq
    exact hq
  rw [← Finset.sum_filter, himg, Finset.sum_image hinj]

/-- Matrix-level sandwich: `apply_general_gate` multiplies the density
matrix by the lifted gate on the left and by its conjugate transpose on the
right.  Shared backbone of the gate and Kraus-channel theorems. -/
theorem toM_applyGate (c : DMState K) (G : GateSpec K) (idx : List ℕ)
    (hwf : WF c) (hnd : idx.Nodup) (hlen : idx.length = G.k)
    (hlt : ∀ q ∈ idx, q < c.nqubits) :
    toM (applyGeneralGate c G idx)
      = liftGate c.nqubits G idx * toM c * (liftGate c.nqubits G idx).conjTranspose := by
  have hL0 := dmFun_applyGate c G idx hwf hnd hlen hlt
  rcases G with ⟨k, gdata⟩
  simp only at hlen
  subst hlen
  apply Matrix.ext
  intro x y
  show dmFun (applyGeneralGate c ⟨idx.length, gdata⟩ idx) (padF c.nqubits x) (padF c.nqubits y)
      = (liftGate c.nqubits ⟨idx.length, gdata⟩ idx * toM c
          * (liftGate c.nqubits ⟨idx.length, gdata⟩ idx).conjTranspose) x y
  rw [hL0 (padF c.nqubits x) (padF c.nqubits y)]
  rw [Matrix.mul_apply]
  simp only [Matrix.mul_apply, Matrix.conjTranspose_apply, Finset.sum_mul]
  have hlt2 : ∀ q ∈ idx, q < c.nqubits := hlt
  have hout : (∑ v : Fin c.nqubits → Fin 2, ∑ u : Fin c.nqubits → Fin 2,
        liftGate c.nqubits ⟨idx.length, gdata⟩ idx x u * toM c u v
          * star (liftGate c.nqubits ⟨idx.length, gdata⟩ idx y v))
      = ∑ u : Fin c.nqubits → Fin 2,
          (if ∀ q : Fin c.nqubits, (q : ℕ) ∉ idx → x q = u q then
            (∑ v : Fin c.nqubits → Fin 2,
              (if ∀ q : Fin c.nqubits, (q : ℕ) ∉ idx → y q = v q then
                gdata (gateArg idx.length (padF c.nqubits x) idx
                    (fun m => padF c.nqubits u (idx.getD m 0)))
                  * toM c u v
                  * star (gdata (gateArg idx.length (padF c.nqubits y) idx
                      (fun m => padF c.nqubits v (idx.getD m 0))))
              else 0))
          else 0) := by
    rw [Finset.sum_comm]
    refine Finset.sum_congr rfl (fun u _ => ?_)
    by_cases hPu : ∀ q : Fin c.nqubits, (q : ℕ) ∉ idx → x q = u q
    · rw [if_pos hPu]
      refine Finset.sum_congr rfl (fun v _ => ?_)
      by_cases hQv : ∀ q : Fin c.nqubits, (q : ℕ) ∉ idx → y q = v q
      · show (if _ then _ else 0) * toM c u v * star (if _ then _ else 0) = _
        rw [if_pos hPu, if_pos hQv, if_pos hQv]
      · show (if _ then _ else 0) * toM c u v * star (if _ then _ else 0) = _
        rw [if_neg hQv, if_neg hQv, star_zero, mul_zero]
    · rw [if_neg hPu]
      refine Finset.sum_eq_zero (fun v _ => ?_)
      show (if _ then _ else 0) * toM c u v * star _ = 0
      rw [if_neg hPu, zero_mul, zero_mul]
  rw [hout]
  rw [sum_constrained c.nqubits idx hnd hlt2 x]
  refine Finset.sum_congr rfl (fun a _ => ?_)
  rw [sum_constrained c.nqubits idx hnd hlt2 y]
  refine Finset.sum_congr rfl (fun b _ => ?_)
  have hpad : ∀ (z : Fin c.nqubits → Fin 2) (A : ℕ → Fin 2),
      padF c.nqubits (fun q : Fin c.nqubits => overwriteL (padF c.nqubits z) idx A (q : ℕ))
        = overwriteL (padF c.nqubits z) idx A := by
    intro z A
    funext p
    by_cases hp : p < c.nqubits
    · simp [padF, hp]
    · simp only [padF, hp, dif_neg, not_false_iff]
      rw [overwriteL_notMem (fun hm => hp (hlt2 _ hm))]
      simp [padF, hp]
  have hgarg : ∀ (z : Fin c.nqubits → Fin 2) (A : Fin idx.length → Fin 2),
      (gateArg idx.length (padF c.nqubits z) idx
          (fun m => padF c.nqubits
            (fun q : Fin c.nqubits =>
              overwriteL (padF c.nqubits z) idx (padF idx.length A) (q : ℕ))
            (idx.getD m 0)))
        = gateArg idx.length (padF c.nqubits z) idx (padF idx.length A) := by
    intro z A
    funext j
    unfold gateArg
    by_cases hj : (j : ℕ) < idx.length
    · rw [if_pos hj, if_pos hj]
    · rw [if_neg hj, if_neg hj]
      have hj2 : (j : ℕ) - idx.length < idx.length := by
        have := j.isLt
        omega
      have hp : idx.getD ((j : ℕ) - idx.length) 0 < c.nqubits :=
        hlt2 _ (getD_mem_self hj2)
      simp only [padF, hp, dif_pos]
      exact overwriteL_getD hnd hj2 _ _
  show gdata _ * star (gdata _) * dmFun c _ _
      = gdata _ * toM c _ _ * star (gdata _)
  rw [hgarg x a, hgarg y b]
  show _ = gdata _ * dmFun c _ _ * star (gdata _)
  rw [hpad x (padF idx.length a), hpad y (padF idx.length b)]
  ring

theorem list_sum_apply {m n : Type} (l : List (Matrix m n K)) (i : m) (j : n) :
    l.sum i j = (l.map (fun M => M i j)).sum := by
  induction l with
  | nil => rfl
  | cons M l ih =>
    simp only [List.sum_cons, List.map_cons, Matrix.add_apply, ih]

theorem toM_copy_contract (c : DMState K) (hfnd : (c.rfront ++ c.lfront).Nodup) :
    toM (copyDMState (contractState c)) = toM c := by
  apply Matrix.ext
  intro x y
  show dmFun (copyDMState (contractState c)) (padF c.nqubits x) (padF c.nqubits y)
      = dmFun c (padF c.nqubits x) (padF c.nqubits y)
  rw [dmFun_copy, dmFun_contract c hfnd]

/-- Matrix-level channel: `apply_general_kraus` replaces the density matrix
by the sum over Kraus branches of the lifted-operator sandwiches. -/
theorem toM_applyKraus (c : DMState K) (ks : List (GateSpec K)) (idxs : List (List ℕ))
    (hwf : WF c) (hm : ks.length = idxs.length)
    (hvalid : ∀ p ∈ ks.zip idxs,
      p.2.Nodup ∧ p.2.length = p.1.k ∧ ∀ q ∈ p.2, q < c.nqubits) :
    toM (applyGeneralKraus c ks idxs)
      = ((ks.zip idxs).map (fun p =>
          liftGate c.nqubits p.1 p.2 * toM c
            * (liftGate c.nqubits p.1 p.2).conjTranspose)).sum := by
  have hwfc : WF (copyDMState (contractState c)) := WF_copyDMState (WF_contractState hwf)
  have htc : toM (copyDMState (contractState c)) = toM c := toM_copy_contract c hwf.2.2.1
  apply Matrix.ext
  intro x y
  show dmFun (applyGeneralKraus c ks idxs) (padF c.nqubits x) (padF c.nqubits y)
      = ((ks.zip idxs).map (fun p =>
          liftGate c.nqubits p.1 p.2 * toM c
            * (liftGate c.nqubits p.1 p.2).conjTranspose)).sum x y
  rw [dmFun_applyKraus c ks idxs hm hwf.1 hwf.2.1, list_sum_apply, List.map_map]
  congr 1
  apply List.map_congr_left
  intro p hp
  obtain ⟨hpnd, hplen, hplt⟩ := hvalid p hp
  have hgate := toM_applyGate (copyDMState (contractState c)) p.1 p.2 hwfc hpnd hplen hplt
  have hentry := congrFun (congrFun hgate x) y
  show dmFun (applyGeneralGate (copyDMState (contractState c)) p.1 p.2)
      (padF c.nqubits x) (padF c.nqubits y) = _
  rw [show dmFun (applyGeneralGate (copyDMState (contractState c)) p.1 p.2)
      (padF c.nqubits x) (padF c.nqubits y)
      = toM (applyGeneralGate (copyDMState (contractState c)) p.1 p.2) x y from rfl]
  rw [hentry, htc]
  rfl

theorem assign_range_r (n : ℕ) (r l : ℕ → Fin 2) {q : ℕ} (hq : q < n) :
    assignList (List.range n) r
      (assignList ((List.range n).map (fun x => x + n)) l (fun _ => 0)) q = r q := by
  have hg : (List.range n).getD q 0 = q := by
    rw [List.getD_eq_getElem _ _ (by simpa using hq), List.getElem_range]
  have hv := assignList_getD (List.nodup_range n)
    (by simpa using hq : q < (List.range n).length) r
    (assignList ((List.range n).map (fun x => x + n)) l (fun _ => 0))
  rw [hg] at hv
  exact hv

theorem assign_range_l (n : ℕ) (r l : ℕ → Fin 2) {q : ℕ} (hq : q < n) :
    assignList (List.range n) r
      (assignList ((List.range n).map (fun x => x + n)) l (fun _ => 0)) (q + n) = l q := by
  have h1 : q + n ∉ List.range n := by
    simp only [List.mem_range]
    omega
  rw [assignList_notMem h1]
  have hg : ((List.range n).map (fun x => x + n)).getD q 0 = q + n := by
    rw [getD_map_idx _ (by simpa using hq)]
    have hg2 : (List.range n).getD q 0 = q := by
      rw [List.getD_eq_getElem _ _ (by simpa using hq), List.getElem_range]
    rw [hg2]
  have hv := assignList_getD ((List.nodup_range n).map
      (fun a b hab => Nat.add_right_cancel hab))
    (by simpa using hq : q < ((List.range n).map (fun x => x + n)).length) l (fun _ => 0)
  rw [hg] at hv
  exact hv

theorem prod_indicator (n : ℕ) (ψ : ℕ → Fin 2) :
    ((List.range n).map (fun x => if ψ x = 0 then (1 : K) else 0)).prod
      = if ∀ q < n, ψ q = 0 then 1 else 0 := by
  induction n with
  | zero => simp
  | succ n ih =>
    rw [List.range_succ, List.map_append, List.prod_append, ih]
    simp only [List.map_cons, List.map_nil, List.prod_cons, List.prod_nil, mul_one]
    have hiff : (∀ q < n + 1, ψ q = 0) ↔ (∀ q < n, ψ q = 0) ∧ ψ n = 0 := by
      constructor
      · intro h
        exact ⟨fun q hq => h q (by omega), h n (by omega)⟩
      · intro h q hq
        rcases Nat.lt_succ_iff_lt_or_eq.mp hq with h2 | h2
        · exact h.1 q h2
        · rw [h2]
          exact h.2
    by_cases h1 : ∀ q < n, ψ q = 0 <;> by_cases h2 : ψ n = 0 <;>
      simp [h1, h2, hiff]

theorem prodNodes_map_range (n : ℕ) (f : ℕ → TNode K) (ψ : ℕ → Fin 2) (g : ℕ → K)
    (h : ∀ x < n, (f x).data (fun i => ψ ((f x).legs i)) = g x) :
    prodNodes ((List.range n).map f) ψ = ((List.range n).map g).prod := by
  unfold prodNodes
  rw [List.map_map]
  congr 1
  apply List.map_congr_left
  intro x hx
  exact h x (List.mem_range.mp hx)

theorem dmFun_initNoInput (n : ℕ) (r l : ℕ → Fin 2) :
    dmFun (initNoInput (K := K) n) r l
      = if (∀ q < n, r q = 0) ∧ (∀ q < n, l q = 0) then 1 else 0 := by
  unfold dmFun initNoInput
  simp only [sumOver]
  rw [prodNodes_append]
  have hl1 : copyNodes n true ((List.range n).map (ket0Node (K := K)))
      = (List.range n).map (fun x => shiftNode n true (ket0Node x)) := by
    unfold copyNodes
    rw [List.map_map]
    rfl
  rw [hl1]
  rw [prodNodes_map_range n (fun x => shiftNode n true (ket0Node x)) _
    (fun x => if l x = 0 then (1 : K) else 0) ?hbra]
  case hbra =>
    intro x hx
    show star (if assignList (List.range n) r
        (assignList ((List.range n).map (fun x => x + n)) l (fun _ => 0)) (x + n) = 0
      then (1 : K) else 0) = _
    rw [assign_range_l n r l hx]
    by_cases hlx : l x = 0
    · simp [hlx]
    · simp [hlx]
  rw [prodNodes_map_range n ket0Node _
    (fun x => if r x = 0 then (1 : K) else 0) ?hket]
  case hket =>
    intro x hx
    show (if assignList (List.range n) r
        (assignList ((List.range n).map (fun x => x + n)) l (fun _ => 0)) x = 0
      then (1 : K) else 0) = _
    rw [assign_range_r n r l hx]
  rw [prod_indicator, prod_indicator, ite_and, mul_comm, ite_mul, one_mul, zero_mul]

theorem bits_zero {n i : ℕ} (hi : i < 2 ^ n) (h : ∀ q < n, i / 2 ^ (n - 1 - q) % 2 = 0) :
    i = 0 := by
  induction n generalizing i with
  | zero =>
    simp at hi
    omega
  | succ n ih =>
    have h0 := h 0 (by omega)
    have he : n + 1 - 1 - 0 = n := by omega
    rw [he] at h0
    have hi2m : i < 2 ^ n * 2 := by
      rw [pow_succ] at hi
      exact hi
    have hdiv : i / 2 ^ n < 2 := Nat.div_lt_of_lt_mul hi2m
    have h1 : i / 2 ^ n = 0 := by
      generalize hg : i / 2 ^ n = t at hdiv h0
      omega
    have hi2 : i < 2 ^ n := by
      rcases Nat.lt_or_ge i (2 ^ n) with h2 | h2
      · exact h2
      · exfalso
        have := Nat.div_le_div_right (c := 2 ^ n) h2
        rw [Nat.div_self (pow_pos (by omega : (0:ℕ) < 2) n)] at this
        omega
    apply ih hi2
    intro q hq
    have hh := h (q + 1) (by omega)
    have he2 : n + 1 - 1 - (q + 1) = n - 1 - q := by omega
    rw [he2] at hh
    exact hh

/-- Entries of the initial `|0…0⟩⟨0…0|` density matrix. -/
theorem dmMatrix_initNoInput (n : ℕ) (i j : Fin (2 ^ n)) :
    dmMatrix (initNoInput (K := K) n) i j
      = if (i : ℕ) = 0 ∧ (j : ℕ) = 0 then 1 else 0 := by
  show (densitymatrixRun (initNoInput (K := K) n) true).1
      (bitsOf n (i : ℕ)) (bitsOf n (j : ℕ)) = _
  have hrun : (densitymatrixRun (initNoInput (K := K) n) true).1
      = dmFun (initNoInput (K := K) n) := rfl
  rw [hrun, dmFun_initNoInput]
  have hbit : ∀ m : Fin (2 ^ n), (∀ q < n, bitsOf n (m : ℕ) q = 0) ↔ (m : ℕ) = 0 := by
    intro m
    constructor
    · intro hz
      refine bits_zero m.isLt (fun q hq => ?_)
      have := hz q hq
      rwa [Fin.ext_iff] at this
    · intro hz q _
      rw [hz]
      apply Fin.ext
      simp [bitsOf]
  simp only [hbit]

theorem length_dedup_iff (idx : List ℕ) :
    idx.length = idx.dedup.length ↔ idx.Nodup := by
  constructor
  · intro h
    have hsub := List.dedup_sublist idx
    have heq : idx.dedup = idx := hsub.eq_of_length h.symm
    exact List.dedup_eq_self.mp heq
  · intro h
    rw [List.dedup_eq_self.mpr h]

theorem dupCheck_true_iff (l occ : List ℕ) :
    dupCheck occ l = true ↔ ¬ l.Nodup ∨ ∃ e ∈ l, e ∈ occ := by
  induction l generalizing occ with
  | nil => simp [dupCheck]
  | cons e rest ih =>
    by_cases he : e ∈ occ
    · constructor
      · intro _
        exact Or.inr ⟨e, List.mem_cons_self _ _, he⟩
      · intro _
        simp [dupCheck, he]
    · rw [show dupCheck occ (e :: rest) = dupCheck (e :: occ) rest from by
        simp [dupCheck, he]]
      rw [ih (e :: occ)]
      constructor
      · rintro (h | ⟨x, hx, hxo⟩)
        · exact Or.inl (fun hnd => h (List.nodup_cons.mp hnd).2)
        · rcases List.mem_cons.mp hxo with hxe | hxo2
          · exact Or.inl (fun hnd => (List.nodup_cons.mp hnd).1 (hxe ▸ hx))
          · exact Or.inr ⟨x, List.mem_cons_of_mem _ hx, hxo2⟩
      · rintro (h | ⟨x, hx, hxo⟩)
        · by_cases hnd : rest.Nodup
          · by_cases hem : e ∈ rest
            · exact Or.inr ⟨e, hem, List.mem_cons_self _ _⟩
            · exact absurd (List.nodup_cons.mpr ⟨hem, hnd⟩) h
          · exact Or.inl hnd
        · rcases List.mem_cons.mp hx with hxe | hx2
          · exact absurd (hxe ▸ hxo) he
          · exact Or.inr ⟨x, hx2, List.mem_cons_of_mem _ hxo⟩

theorem initInputs_ok {n N : ℕ} {vec : ℕ → K} {st : DMState K}
    (h : initInputs n N vec = Except.ok st) :
    st.rfront.length = n ∧ st.lfront.length = n := by
  unfold initInputs at h
  by_cases h1 : Nat.log2 N ≠ n
  · rw [if_pos h1] at h
    cases h
  · rw [if_neg h1] at h
    by_cases h2 : N ≠ 2 ^ n
    · rw [if_pos h2] at h
      cases h
    · rw [if_neg h2] at h
      cases h
      constructor <;> simp

theorem broadcast_single (ks : List (GateSpec K)) (i0 : List ℕ) :
    (if ([i0] : List (List ℕ)).length = 1 then List.replicate ks.length ([i0].getD 0 [])
      else [i0]) = List.replicate ks.length i0 := by
  simp

theorem broadcast_replicate (ks : List (GateSpec K)) (i0 : List ℕ) :
    (if (List.replicate ks.length i0).length = 1
      then List.replicate ks.length ((List.replicate ks.length i0).getD 0 [])
      else List.replicate ks.length i0) = List.replicate ks.length i0 := by
  by_cases h1 : (List.replicate ks.length i0).length = 1
  · rw [if_pos h1]
    rw [List.length_replicate] at h1
    rw [h1]
    rfl
  · rw [if_neg h1]

theorem applyKraus_broadcast (c : DMState K) (ks : List (GateSpec K)) (i0 : List ℕ) :
    applyGeneralKraus c ks [i0] = applyGeneralKraus c ks (List.replicate ks.length i0) := by
  unfold applyGeneralKraus
  rw [broadcast_single, broadcast_replicate]

theorem log2_two_pow (n : ℕ) : Nat.log2 (2 ^ n) = n := by
  rw [Nat.log2_eq_log_two]
  exact Nat.log_pow (by omega) n

/-- C1: for a state `rho`, Kraus operators `K_1..K_m` and matching index
groups, `apply_general_kraus` replaces the network state with the channel
result `Σ_k K_k ρ K_k†`: the network is contracted, each Kraus operator is
applied as a gate to a duplicate of the contracted network and densified,
the branch matrices are summed elementwise, and the sum (reshaped to rank
`2n`, installed as the sole node with the fronts rebuilt from its edge
halves) is the new state. -/
theorem claim_C1_kraus_is_channel (c : DMState K) (ks : List (GateSpec K))
    (idxs : List (List ℕ)) (hwf : WF c) (hne : ks ≠ [])
    (hm : ks.length = idxs.length)
    (hvalid : ∀ p ∈ ks.zip idxs,
      p.2.Nodup ∧ p.2.length = p.1.k ∧ ∀ q ∈ p.2, q < c.nqubits) :
    toM (applyGeneralKraus c ks idxs)
      = ((ks.zip idxs).map (fun p =>
          liftGate c.nqubits p.1 p.2 * toM c
            * (liftGate c.nqubits p.1 p.2).conjTranspose)).sum :=
  toM_applyKraus c ks idxs hwf hm hvalid

/-- C2: for a `k`-qubit gate tensor and pairwise-distinct target indices,
`apply_general_gate` performs the sandwich update `ρ → G ρ G†` by
tensor-network surgery: a conjugated duplicate of the gate is wired to the
left fronts, the gate itself to the right fronts, both nodes are appended,
and the contraction of the resulting network is the lifted gate times the
old density matrix times the conjugate transpose of the lifted gate. -/
theorem claim_C2_gate_is_sandwich (c : DMState K) (G : GateSpec K) (idx : List ℕ)
    (hwf : WF c) (hnd : idx.Nodup) (hlen : idx.length = G.k)
    (hlt : ∀ q ∈ idx, q < c.nqubits) :
    toM (applyGeneralGate c G idx)
      = liftGate c.nqubits G idx * toM c * (liftGate c.nqubits G idx).conjTranspose :=
  toM_applyGate c G idx hwf hnd hlen hlt

/-- C3: for every `n ≥ 1`, a freshly constructed `DMCircuit(n)` with no
inputs represents `|0…0⟩⟨0…0|` exactly: `densitymatrix()` returns the
`2^n × 2^n` matrix whose `(0,0)` entry is `1` and all other entries `0`,
and whose trace is `1`. -/
theorem claim_C3_fresh_state (n : ℕ) (hn : 1 ≤ n) :
    (∀ i j : Fin (2 ^ n), dmMatrix (initNoInput (K := K) n) i j
        = if (i : ℕ) = 0 ∧ (j : ℕ) = 0 then 1 else 0)
    ∧ Matrix.trace (dmMatrix (initNoInput (K := K) n)) = 1 := by
  refine ⟨fun i j => dmMatrix_initNoInput n i j, ?_⟩
  have hdiag : ∀ i : Fin (2 ^ n), dmMatrix (initNoInput (K := K) n) i i
      = if i = (⟨0, pow_pos (by omega) n⟩ : Fin (2 ^ n)) then 1 else 0 := by
    intro i
    rw [dmMatrix_initNoInput]
    by_cases h : (i : ℕ) = 0
    · rw [if_pos ⟨h, h⟩, if_pos (Fin.ext h)]
    · rw [if_neg (fun hc => h hc.1), if_neg (fun hc => h (by rw [hc]))]
  unfold Matrix.trace
  show ∑ i : Fin (2 ^ n), (dmMatrix (initNoInput (K := K) n)).diag i = 1
  simp only [Matrix.diag]
  rw [Finset.sum_congr rfl (fun i _ => hdiag i)]
  rw [Finset.sum_ite_eq' Finset.univ (⟨0, pow_pos (by omega) n⟩ : Fin (2 ^ n))
    (fun _ => (1 : K))]
  simp

/-- C4: `apply_general_gate` raises an assertion error if and only if the
index sequence contains a duplicate (the assertion `len(index) ==
len(set(index))`), and when it raises, the circuit state is unchanged
because the assertion precedes every mutation. -/
theorem claim_C4_gate_duplicate_assert (c : DMState K) (G : GateSpec K) (idx : List ℕ) :
    ((applyGeneralGateRun c G idx).1.isSome ↔ ¬ idx.Nodup)
    ∧ ((applyGeneralGateRun c G idx).1.isSome → (applyGeneralGateRun c G idx).2 = c) := by
  unfold applyGeneralGateRun
  by_cases h : idx.length = idx.dedup.length
  · rw [if_pos h]
    refine ⟨?_, ?_⟩
    · simp [(length_dedup_iff idx).mp h]
    · intro hs
      simp at hs
  · rw [if_neg h]
    refine ⟨?_, fun _ => rfl⟩
    simp only [Option.isSome_some, true_iff]
    exact fun hnd => h ((length_dedup_iff idx).mpr hnd)

/-- C5: `apply_general_kraus` raises an assertion error unless the number
of index groups equals the number of Kraus operators, or there is exactly
one index group; a single index group is broadcast to every Kraus branch
and the operation completes without error. -/
theorem claim_C5_kraus_assert_and_broadcast (c : DMState K) :
    (∀ (ks : List (GateSpec K)) idxs, ((applyGeneralKrausRun c ks idxs).1.isSome
        ↔ ¬ (ks.length = idxs.length ∨ idxs.length = 1)))
    ∧ (∀ (ks : List (GateSpec K)) (i0 : List ℕ),
        (applyGeneralKrausRun c ks [i0]).1 = none
        ∧ applyGeneralKraus c ks [i0] = applyGeneralKraus c ks (List.replicate ks.length i0)) := by
  constructor
  · intro ks idxs
    unfold applyGeneralKrausRun
    by_cases h : ks.length = idxs.length ∨ idxs.length = 1
    · rw [if_pos h]
      simp [h]
    · rw [if_neg h]
      simp [h]
  · intro ks i0
    constructor
    · unfold applyGeneralKrausRun
      rw [if_pos (Or.inr (by simp))]
    · exact applyKraus_broadcast c ks i0

/-- C6: `densitymatrix(reuse=True)` returns the same result as
`reuse=False`: under a valid memo, the cached path returns the current
contraction; the memo written by a call stays valid, so two consecutive
`reuse=True` calls are bit-identical to a `reuse=False` recontraction; and
every gate or channel application (and fresh construction) clears the memo,
so the cached path can never serve a pre-mutation result. -/
theorem claim_C6_densitymatrix_reuse (c : DMState K) (hc : cacheOK c) :
    (densitymatrixRun c true).1 = (densitymatrixRun c false).1
    ∧ cacheOK (densitymatrixRun c true).2
    ∧ (densitymatrixRun (densitymatrixRun c true).2 true).1 = (densitymatrixRun c false).1
    ∧ (∀ (G : GateSpec K) idx, cacheOK (applyGeneralGate c G idx))
    ∧ (∀ (ks : List (GateSpec K)) idxs, cacheOK (applyGeneralKraus c ks idxs))
    ∧ (∀ n, cacheOK (initNoInput (K := K) n)) := by
  have hfst : ∀ d : DMState K, cacheOK d → ∀ b, (densitymatrixRun d b).1 = dmFun d := by
    intro d hd b
    cases b with
    | false => rfl
    | true =>
      unfold densitymatrixRun
      rw [show (if true then d.state_tensor else none) = d.state_tensor from rfl]
      cases hst : d.state_tensor with
      | none => rfl
      | some t => exact hd t hst
  have hsnd : ∀ d : DMState K, cacheOK d → ∀ b,
      cacheOK (densitymatrixRun d b).2 ∧ dmFun (densitymatrixRun d b).2 = dmFun d := by
    intro d hd b
    have hnew : cacheOK ({ d with state_tensor := some (dmFun d) } : DMState K) := by
      intro t ht
      have ht3 : dmFun d = t := Option.some.inj ht
      rw [dmFun_set_state_tensor]
      exact ht3.symm
    cases b with
    | false =>
      refine ⟨hnew, ?_⟩
      show dmFun ({ d with state_tensor := some (dmFun d) } : DMState K) = dmFun d
      exact dmFun_set_state_tensor d _
    | true =>
      unfold densitymatrixRun
      rw [show (if true then d.state_tensor else none) = d.state_tensor from rfl]
      cases hst : d.state_tensor with
      | none =>
        refine ⟨hnew, ?_⟩
        show dmFun ({ d with state_tensor := some (dmFun d) } : DMState K) = dmFun d
        exact dmFun_set_state_tensor d _
      | some t => exact ⟨hd, rfl⟩
  refine ⟨?_, (hsnd c hc true).1, ?_, ?_, ?_, ?_⟩
  · rw [hfst c hc true, hfst c hc false]
  · rw [hfst _ (hsnd c hc true).1 true, (hsnd c hc true).2, hfst c hc false]
  · intro G idx t ht
    exact Option.noConfusion ht
  · intro ks idxs t ht
    exact Option.noConfusion ht
  · intro n t ht
    exact Option.noConfusion ht

/-- C7: `expectation` raises a `ValueError` when the same qubit index
appears in more than one operator's index list, and in all cases it leaves
the caller's network unchanged because it only reads the circuit's fields
and operates on a duplicated copy of the nodes and front edges. -/
theorem claim_C7_expectation_overlap_error (c : DMState K) (ops : List (OpSpec K))
    (h : ∃ i j : Fin ops.length, i < j
      ∧ ∃ q ∈ (ops.get i).index, q ∈ (ops.get j).index) :
    (expectationRun c ops).1 = Except.error ()
    ∧ ∀ ops2 : List (OpSpec K), (expectationRun c ops2).2 = c := by
  constructor
  · unfold expectationRun
    have hdup : dupCheck [] ((ops.map OpSpec.index).flatten) = true := by
      rw [dupCheck_true_iff]
      left
      intro hnd
      obtain ⟨i, j, hij, q, hqi, hqj⟩ := h
      rw [List.nodup_flatten] at hnd
      have hpair := hnd.2
      rw [List.pairwise_iff_getElem] at hpair
      have hi2 : (i : ℕ) < (ops.map OpSpec.index).length := by
        rw [List.length_map]
        exact i.isLt
      have hj2 : (j : ℕ) < (ops.map OpSpec.index).length := by
        rw [List.length_map]
        exact j.isLt
      have hd := hpair (i : ℕ) (j : ℕ) hi2 hj2 hij
      rw [List.getElem_map, List.getElem_map] at hd
      exact hd hqi hqj
    rw [if_pos hdup]
  · intro ops2
    unfold expectationRun
    split <;> rfl

/-- C10: the duplicate check of `expectation` runs over all (operator, leg)
pairs seen so far, so a `ValueError` is raised exactly when some qubit index
is repeated anywhere across the flattened operator index lists — including
a repeat inside a single operator's own index list. -/
theorem claim_C10_expectation_any_duplicate (c : DMState K) (ops : List (OpSpec K)) :
    (expectationRun c ops).1 = Except.error ()
      ↔ ¬ ((ops.map OpSpec.index).flatten).Nodup := by
  unfold expectationRun
  by_cases h : dupCheck [] ((ops.map OpSpec.index).flatten) = true
  · rw [if_pos h]
    refine ⟨fun _ => ?_, fun _ => rfl⟩
    rcases (dupCheck_true_iff _ []).mp h with h2 | ⟨e, _, he⟩
    · exact h2
    · cases he
  · rw [if_neg h]
    rw [dupCheck_true_iff] at h
    push_neg at h
    simp [h.1]

/-- C8: constructing a `DMCircuit` from a pure-state vector fails with a
dimension-mismatch error exactly when the vector length is not
`2 ^ nqubits`: the constructor asserts that the truncated logarithm of the
length equals `nqubits`, and when that passes but the length is not a power
of two, only the reshape step fails. -/
theorem claim_C8_inputs_dimension_mismatch (n N : ℕ) (vec : ℕ → K) :
    ((∃ e, initInputs n N vec = Except.error e) ↔ N ≠ 2 ^ n)
    ∧ (Nat.log2 N ≠ n → initInputs n N vec = Except.error InitErr.assertFail)
    ∧ (Nat.log2 N = n → N ≠ 2 ^ n →
        initInputs n N vec = Except.error InitErr.reshapeFail) := by
  refine ⟨⟨?_, ?_⟩, ?_, ?_⟩
  · rintro ⟨e, he⟩ heq
    subst heq
    unfold initInputs at he
    rw [if_neg (fun hc => hc (log2_two_pow n)), if_neg (fun hc => hc rfl)] at he
    cases he
  · intro hN
    unfold initInputs
    by_cases h1 : Nat.log2 N ≠ n
    · rw [if_pos h1]
      exact ⟨InitErr.assertFail, rfl⟩
    · rw [if_neg h1, if_pos hN]
      exact ⟨InitErr.reshapeFail, rfl⟩
  · intro h1
    unfold initInputs
    rw [if_pos h1]
  · intro h1 h2
    unfold initInputs
    rw [if_neg (fun hc => hc h1), if_pos h2]

/-- C9: every operation keeps exactly `nqubits` right-front and `nqubits`
left-front edges: all three constructor paths establish it,
`apply_general_gate` replaces front entries in place without changing
either length, and `apply_general_kraus` rebuilds both lists with exactly
`nqubits` edges each from the halves of the summed node. -/
theorem claim_C9_front_invariant :
    (∀ n, (initNoInput (K := K) n).rfront.length = n
        ∧ (initNoInput (K := K) n).lfront.length = n)
    ∧ (∀ n N (vec : ℕ → K) st, initInputs n N vec = Except.ok st →
        st.rfront.length = n ∧ st.lfront.length = n)
    ∧ (∀ n (dmv : ℕ → K), (initDMInputs n dmv).rfront.length = n
        ∧ (initDMInputs n dmv).lfront.length = n)
    ∧ (∀ (c : DMState K) G idx,
        (applyGeneralGate c G idx).rfront.length = c.rfront.length
        ∧ (applyGeneralGate c G idx).lfront.length = c.lfront.length)
    ∧ (∀ (c : DMState K) ks idxs,
        (applyGeneralKraus c ks idxs).rfront.length = c.nqubits
        ∧ (applyGeneralKraus c ks idxs).lfront.length = c.nqubits) := by
  refine ⟨?_, ?_, ?_, ?_, ?_⟩
  · intro n
    constructor <;> simp [initNoInput]
  · intro n N vec st h
    exact initInputs_ok h
  · intro n dmv
    constructor <;> simp [initDMInputs]
  · intro c G idx
    constructor
    · exact setTargets_length _ _ _
    · exact setTargets_length _ _ _
  · intro c ks idxs
    constructor <;> simp [applyGeneralKraus]

theorem claim_C1_kraus_is_channel_witness :
    WF (initNoInput 1 (K := ℤ))
    ∧ toM (applyGeneralKraus (initNoInput 1 (K := ℤ))
          [⟨1, fun v => if v 0 = v 1 then 0 else 1⟩, ⟨1, fun v => if v 0 = v 1 then 1 else 0⟩]
          [[0], [0]])
      = (([(⟨1, fun v => if v 0 = v 1 then 0 else 1⟩ : GateSpec ℤ),
           ⟨1, fun v => if v 0 = v 1 then 1 else 0⟩].zip [[0], [0]]).map (fun p =>
          liftGate (initNoInput 1 (K := ℤ)).nqubits p.1 p.2 * toM (initNoInput 1 (K := ℤ))
            * (liftGate (initNoInput 1 (K := ℤ)).nqubits p.1 p.2).conjTranspose)).sum :=
  ⟨by unfold WF; decide, claim_C1_kraus_is_channel (initNoInput 1) _ _
    (by unfold WF; decide) (by simp) (by decide) (by decide)⟩

theorem claim_C2_gate_is_sandwich_witness :
    WF (initNoInput 1 (K := ℤ)) ∧ ([0] : List ℕ).Nodup
    ∧ toM (applyGeneralGate (initNoInput 1 (K := ℤ))
          ⟨1, fun v => if v 0 = v 1 then 0 else 1⟩ [0])
      = liftGate (initNoInput 1 (K := ℤ)).nqubits
            ⟨1, fun v => if v 0 = v 1 then 0 else 1⟩ [0]
          * toM (initNoInput 1 (K := ℤ))
          * (liftGate (initNoInput 1 (K := ℤ)).nqubits
              ⟨1, fun v => if v 0 = v 1 then 0 else 1⟩ [0]).conjTranspose :=
  ⟨by unfold WF; decide, by decide, claim_C2_gate_is_sandwich (initNoInput 1) _ [0]
    (by unfold WF; decide) (by decide) (by decide) (by decide)⟩

theorem claim_C3_fresh_state_witness :
    1 ≤ 2
    ∧ ((∀ i j : Fin (2 ^ 2), dmMatrix (initNoInput (K := ℤ) 2) i j
        = if (i : ℕ) = 0 ∧ (j : ℕ) = 0 then 1 else 0)
      ∧ Matrix.trace (dmMatrix (initNoInput (K := ℤ) 2)) = 1) :=
  ⟨by omega, claim_C3_fresh_state 2 (by omega)⟩

theorem claim_C4_gate_duplicate_assert_witness :
    (applyGeneralGateRun (initNoInput 2 (K := ℤ)) ⟨1, fun _ => 0⟩ [0, 0]).1.isSome
    ∧ (applyGeneralGateRun (initNoInput 2 (K := ℤ)) ⟨1, fun _ => 0⟩ [0, 0]).2
        = initNoInput 2 := by
  have h := claim_C4_gate_duplicate_assert (initNoInput 2 (K := ℤ)) ⟨1, fun _ => 0⟩ [0, 0]
  have hs : (applyGeneralGateRun (initNoInput 2 (K := ℤ)) ⟨1, fun _ => 0⟩ [0, 0]).1.isSome :=
    h.1.mpr (by decide)
  exact ⟨hs, h.2 hs⟩

theorem claim_C5_kraus_assert_and_broadcast_witness :
    (applyGeneralKrausRun (initNoInput 1 (K := ℤ))
        [⟨1, fun _ => 0⟩, ⟨1, fun _ => 1⟩, ⟨1, fun _ => 2⟩] [[0]]).1 = none
    ∧ applyGeneralKraus (initNoInput 1 (K := ℤ))
        [⟨1, fun _ => 0⟩, ⟨1, fun _ => 1⟩, ⟨1, fun _ => 2⟩] [[0]]
      = applyGeneralKraus (initNoInput 1 (K := ℤ))
        [⟨1, fun _ => 0⟩, ⟨1, fun _ => 1⟩, ⟨1, fun _ => 2⟩]
        (List.replicate
          ([⟨1, fun _ => 0⟩, ⟨1, fun _ => 1⟩, (⟨1, fun _ => 2⟩ : GateSpec ℤ)]).length [0]) := by
  have h := claim_C5_kraus_assert_and_broadcast (initNoInput 1 (K := ℤ))
  exact ⟨(h.2 _ [0]).1, (h.2 _ [0]).2⟩

theorem claim_C6_densitymatrix_reuse_witness :
    (densitymatrixRun (initNoInput 1 (K := ℤ)) true).1
        = (densitymatrixRun (initNoInput 1 (K := ℤ)) false).1
    ∧ cacheOK (densitymatrixRun (initNoInput 1 (K := ℤ)) true).2 := by
  have h := claim_C6_densitymatrix_reuse (initNoInput 1 (K := ℤ))
    (fun t ht => Option.noConfusion ht)
  exact ⟨h.1, h.2.1⟩

theorem claim_C7_expectation_overlap_error_witness :
    (expectationRun (initNoInput 2 (K := ℤ))
        [⟨1, fun _ => 0, [0]⟩, ⟨1, fun _ => 0, [0]⟩]).1 = Except.error ()
    ∧ (expectationRun (initNoInput 2 (K := ℤ))
        [⟨1, fun _ => 0, [0]⟩, ⟨1, fun _ => 0, [0]⟩]).2 = initNoInput 2 := by
  have h := claim_C7_expectation_overlap_error (initNoInput 2 (K := ℤ))
    [⟨1, fun _ => 0, [0]⟩, ⟨1, fun _ => 0, [0]⟩] (by decide)
  exact ⟨h.1, h.2 _⟩

theorem claim_C8_inputs_dimension_mismatch_witness :
    Nat.log2 3 = 1 ∧ 3 ≠ 2 ^ 1
    ∧ initInputs 1 3 (fun _ => (0 : ℤ)) = Except.error InitErr.reshapeFail := by
  have h := claim_C8_inputs_dimension_mismatch 1 3 (fun _ => (0 : ℤ))
  have hlog : Nat.log2 3 = 1 := by simp [Nat.log2]
  exact ⟨hlog, by decide, h.2.2 hlog (by decide)⟩

theorem claim_C9_front_invariant_witness :
    (initNoInput 3 (K := ℤ)).rfront.length = 3
    ∧ (applyGeneralKraus (initNoInput 1 (K := ℤ)) [] []).rfront.length = 1 := by
  have h := claim_C9_front_invariant (K := ℤ)
  exact ⟨(h.1 3).1, (h.2.2.2.2 (initNoInput 1) [] []).1⟩

end DMSim
